import Mathlib

/-!
# Verification of the poker equity calculator (`main.py`)

This file gives a shallow embedding, in Lean 4, of the hand-evaluation
engine, comparator, cache, run-out enumerator and equity aggregator of the
Python source, and proves / refutes the frozen claims about it.

Conventions of the embedding:
* A `Card` is a pair of a rank index (`Fin 13`, `0 = "2"` up to `12 = "A"`,
  exactly the index into the source's `CARDINALITIES` list, which is what
  `get_cardinality_strength` returns) and a suit index (`Fin 4`, in the
  order of the source's `SUITS` list: `0 = "h"`, `1 = "d"`, `2 = "s"`,
  `3 = "c"`).
* Python's stable `sorted(..., key=lambda c: -strength)` is embedded as a
  stable insertion sort `insSort`.
* Python's `list(set(a) - set(b))` materializes a set whose iteration order
  is unspecified; the embedding fixes the order of first appearance in `a`
  (`setMinus`).  Every consumer of such a list either re-sorts it by rank or
  uses only its length / membership, so no claim depends on that order.
* Code that can raise (`IndexError` on `xs[0]`, the `assert` statements) is
  embedded with `Option`, `none` standing for the raised exception.
-/

/-- A playing card: rank index into `CARDINALITIES` (`0 = "2"` … `12 = "A"`)
and suit index into `SUITS` (`0 = "h"`, `1 = "d"`, `2 = "s"`, `3 = "c"`). -/
structure Card where
  rank : Fin 13
  suit : Fin 4
deriving DecidableEq, Repr, Fintype

/-- `get_cardinality_strength`: the source returns
`CARDINALITIES.index(cardinality)`; the embedding stores that index as the
rank, so the strength is the rank itself. -/
def get_cardinality_strength (c : Card) : Nat := c.rank.val

/-- Stable insertion step: `keep x a = true` means `x` must stay strictly
before `a`; an element is inserted in front of the first element that does
not have to stay before it, which matches the placement a stable sort gives
to an element that occurred earlier in the input. -/
def insertS (keep : α → α → Bool) (a : α) : List α → List α
  | [] => [a]
  | x :: xs => if keep x a then x :: insertS keep a xs else a :: x :: xs

/-- Stable insertion sort, the embedding of Python's stable `sorted`. -/
def insSort (keep : α → α → Bool) : List α → List α
  | [] => []
  | c :: rest => insertS keep c (insSort keep rest)

theorem insertS_perm (keep : α → α → Bool) (a : α) (l : List α) :
    List.Perm (insertS keep a l) (a :: l) := by
  induction l with
  | nil => exact List.Perm.refl _
  | cons x xs ih =>
    unfold insertS
    cases h : keep x a
    · simp only [Bool.false_eq_true, if_false]
      exact List.Perm.refl _
    · simp only [if_true]
      exact ((ih.cons x).trans (List.Perm.swap a x xs))

theorem insSort_perm (keep : α → α → Bool) (l : List α) :
    List.Perm (insSort keep l) l := by
  induction l with
  | nil => exact List.Perm.refl _
  | cons c rest ih =>
    exact (insertS_perm keep c (insSort keep rest)).trans (ih.cons c)

theorem insertS_pairwise (keep : α → α → Bool)
    (hasym : ∀ x y, keep x y = true → keep y x = false)
    (hntr : ∀ x y z, keep x y = false → keep y z = false → keep x z = false)
    (a : α) (l : List α)
    (hl : l.Pairwise (fun u v => keep v u = false)) :
    (insertS keep a l).Pairwise (fun u v => keep v u = false) := by
  induction l with
  | nil => simp [insertS]
  | cons x xs ih =>
    rcases List.pairwise_cons.mp hl with ⟨hx, hxs⟩
    unfold insertS
    cases h : keep x a
    · simp only [Bool.false_eq_true, if_false]
      refine List.pairwise_cons.mpr ⟨?_, hl⟩
      intro y hy
      rcases List.mem_cons.mp hy with hya | hyb
      · subst hya; exact h
      · exact hntr y x a (hx y hyb) h
    · simp only [if_true]
      refine List.pairwise_cons.mpr ⟨?_, ih hxs⟩
      intro y hy
      rcases List.mem_cons.mp ((List.Perm.mem_iff (insertS_perm keep a xs)).mp hy) with hya | hyb
      · subst hya; exact hasym x y h
      · exact hx y hyb

theorem insSort_pairwise (keep : α → α → Bool)
    (hasym : ∀ x y, keep x y = true → keep y x = false)
    (hntr : ∀ x y z, keep x y = false → keep y z = false → keep x z = false)
    (l : List α) :
    (insSort keep l).Pairwise (fun u v => keep v u = false) := by
  induction l with
  | nil => simp [insSort]
  | cons c rest ih => exact insertS_pairwise keep hasym hntr c (insSort keep rest) ih

/-- Python's stable `sorted(cards, key=lambda card: -strength(card))`. -/
def sortDesc (cards : List Card) : List Card :=
  insSort (fun x a => decide (get_cardinality_strength a < get_cardinality_strength x)) cards

/-- Embedding of `list(set(a) - set(b))`.  Python's set iteration order is
unspecified; the embedding keeps the order of `a`.  Every consumer either
re-sorts the result by rank or only uses its length or membership. -/
def setMinus (a b : List Card) : List Card :=
  a.filter (fun c => decide (c ∉ b))

/-- Number of cards of rank `r` in `cards` (the `count` field of the
frequency record that `get_n_of_kind` builds for rank `r`). -/
def countRank (cards : List Card) (r : Nat) : Nat :=
  (cards.filter (fun c => get_cardinality_strength c == r)).length

/-- `get_n_of_kind(cards, n)`: the frequency records are iterated in
descending rank order (the `sorted(..., key=-strength)` of the dict items);
the first rank present in `cards` with exactly `n` occurrences wins, and its
cards are returned in their input order (the order the dict appended them),
which is `cards.filter` on that rank. -/
def get_n_of_kind (cards : List Card) (n : Nat) : Option (List Card) :=
  match (List.range 13).reverse.find?
      (fun r => (countRank cards r == n) && decide (0 < countRank cards r)) with
  | some r => some (cards.filter (fun c => get_cardinality_strength c == r))
  | none => none

/-- `get_high_card`: the `min(5, len(cards))` highest cards in descending
rank order.  It always returns a list (possibly short), never `None`. -/
def get_high_card (cards : List Card) : List Card :=
  (sortDesc cards).take (min 5 cards.length)

/-- `get_pair`: the highest exact pair plus `get_high_card` of the rest. -/
def get_pair (cards : List Card) : Option (List Card) :=
  match get_n_of_kind cards 2 with
  | none => none
  | some p => some (p ++ get_high_card (setMinus cards p))

/-- `get_two_pair`; `none` in the last match also stands for the
`IndexError` Python would raise on `kickers[0]` if no kicker remained
(impossible for an input of five or more cards). -/
def get_two_pair (cards : List Card) : Option (List Card) :=
  match get_n_of_kind cards 2 with
  | none => none
  | some p1 =>
    let remaining := setMinus cards p1
    match get_n_of_kind remaining 2 with
    | none => none
    | some p2 =>
      match get_high_card (setMinus remaining p2) with
      | [] => none
      | k :: _ => some (p1 ++ p2 ++ [k])

/-- `get_three_of_kind`: the triple plus the two highest kickers. -/
def get_three_of_kind (cards : List Card) : Option (List Card) :=
  match get_n_of_kind cards 3 with
  | none => none
  | some t => some (t ++ (get_high_card (setMinus cards t)).take 2)

/-- `get_full_house`: a rank with exactly three occurrences, then a rank
with exactly two occurrences among the remaining cards. -/
def get_full_house (cards : List Card) : Option (List Card) :=
  match get_n_of_kind cards 3 with
  | none => none
  | some t =>
    match get_n_of_kind (setMinus cards t) 2 with
    | none => none
    | some p => some (t ++ p)

/-- `get_quads`; the empty-kicker `none` models the `IndexError` on
`kickers[0]` (impossible for five or more cards). -/
def get_quads (cards : List Card) : Option (List Card) :=
  match get_n_of_kind cards 4 with
  | none => none
  | some q =>
    match get_high_card (setMinus cards q) with
    | [] => none
    | k :: _ => some (q ++ [k])

/-- Helper for `occOrder`: `seen` holds the elements already emitted. -/
def occOrderAux [DecidableEq α] : List α → List α → List α
  | _, [] => []
  | seen, x :: xs =>
    if x ∈ seen then occOrderAux seen xs else x :: occOrderAux (x :: seen) xs

/-- First-occurrence order of the elements of a list: the iteration order of
the keys of a Python dict built by appending under each key. -/
def occOrder [DecidableEq α] (l : List α) : List α := occOrderAux [] l

/-- `get_flush`: suit groups are built from the rank-sorted cards, iterated
in first-appearance order; the first group with exactly 5 cards (the
source's `count == 5` test) is returned, in descending rank order. -/
def get_flush (cards : List Card) : Option (List Card) :=
  let sc := sortDesc cards
  match (occOrder (sc.map Card.suit)).find?
      (fun s => (sc.filter (fun c => c.suit == s)).length == 5) with
  | some s => some (sc.filter (fun c => c.suit == s))
  | none => none

/-- The scan of `get_straight` over the descending-sorted cards: `prev` is
`sorted_cards[i-1]`, `made` is `made_straight`.  A gap of 0 skips the card,
a gap of 1 extends the run, a larger gap resets the run only while it is
still shorter than 5. -/
def scanLoop : Card → List Card → List Card → List Card
  | _, made, [] => made
  | prev, made, c :: rest =>
    let gap : Int :=
      (get_cardinality_strength prev : Int) - (get_cardinality_strength c : Int)
    if gap = 0 then scanLoop c made rest
    else if gap = 1 then scanLoop c (made ++ [c]) rest
    else if made.length < 5 then scanLoop c [c] rest
    else scanLoop c made rest

/-- `get_straight`; the `[]` case models the `IndexError` Python would raise
on `sorted_cards[0]` for an empty input.  After the scan, if the lowest card
is a 2 and the highest an Ace, the highest card is appended (the wheel
check), and the first five cards are returned when at least five were
collected. -/
def get_straight (cards : List Card) : Option (List Card) :=
  match sortDesc cards with
  | [] => none
  | c0 :: rest =>
    let made := scanLoop c0 [c0] rest
    let made2 :=
      if get_cardinality_strength ((c0 :: rest).getLastD c0) = 0 ∧
          get_cardinality_strength c0 = 12
      then made ++ [c0] else made
    if 5 ≤ made2.length then some (made2.take 5) else none

/-- `get_straight_flush`: suit groups in first-appearance order of the raw
input; the first group whose `get_straight` is truthy is returned. -/
def get_straight_flush (cards : List Card) : Option (List Card) :=
  (occOrder (cards.map Card.suit)).findSome?
    (fun s => get_straight (cards.filter (fun c => c.suit == s)))

/-- `get_royal_flush`: a straight flush whose first (highest) card is an
Ace; `some []` cannot occur but is mapped to `none` like the `IndexError`
it would raise. -/
def get_royal_flush (cards : List Card) : Option (List Card) :=
  match get_straight_flush cards with
  | none => none
  | some [] => none
  | some (c :: rest) =>
    if get_cardinality_strength c = 12 then some (c :: rest) else none

/-- The `Hand` enum of the source (an `IntEnum` with values 10 down to 1). -/
inductive Hand where
  | ROYAL_FLUSH
  | STRAIGHT_FLUSH
  | QUADS
  | FULL_HOUSE
  | FLUSH
  | STRAIGHT
  | THREE_OF_KIND
  | TWO_PAIR
  | PAIR
  | HIGH_CARD
deriving DecidableEq, Repr, Fintype

/-- The integer value of each `Hand` enum member. -/
def handIntVal : Hand → Nat
  | .ROYAL_FLUSH => 10
  | .STRAIGHT_FLUSH => 9
  | .QUADS => 8
  | .FULL_HOUSE => 7
  | .FLUSH => 6
  | .STRAIGHT => 5
  | .THREE_OF_KIND => 4
  | .TWO_PAIR => 3
  | .PAIR => 2
  | .HIGH_CARD => 1

/-- The `tiebreakers` field of the `HANDS` table. -/
def tiebreakers : Hand → List Nat
  | .ROYAL_FLUSH => []
  | .STRAIGHT_FLUSH => []
  | .QUADS => [0, 4]
  | .FULL_HOUSE => [0, 3]
  | .FLUSH => [0]
  | .STRAIGHT => [0]
  | .THREE_OF_KIND => [0, 3, 4]
  | .TWO_PAIR => [0, 2, 4]
  | .PAIR => [0, 2, 3, 4]
  | .HIGH_CARD => [0, 1, 2, 3, 4]

/-- The `calc` field of the `HANDS` table.  `get_high_card` returns a bare
list whose truthiness the classifier tests, so an empty list counts as a
failure, exactly like `None` from the other detectors. -/
def handCalc : Hand → List Card → Option (List Card)
  | .ROYAL_FLUSH => get_royal_flush
  | .STRAIGHT_FLUSH => get_straight_flush
  | .QUADS => get_quads
  | .FULL_HOUSE => get_full_house
  | .FLUSH => get_flush
  | .STRAIGHT => get_straight
  | .THREE_OF_KIND => get_three_of_kind
  | .TWO_PAIR => get_two_pair
  | .PAIR => get_pair
  | .HIGH_CARD => fun cards =>
    match get_high_card cards with
    | [] => none
    | c :: rest => some (c :: rest)

/-- The keys of the `HANDS` `OrderedDict`, in iteration order. -/
def HANDS : List Hand :=
  [.ROYAL_FLUSH, .STRAIGHT_FLUSH, .QUADS, .FULL_HOUSE, .FLUSH, .STRAIGHT,
   .THREE_OF_KIND, .TWO_PAIR, .PAIR, .HIGH_CARD]

/-- The category scan of `get_best_hand` on a cache miss: the first detector
whose result is truthy, with its category. -/
def firstSuccess (cards : List Card) : Option (Hand × List Card) :=
  HANDS.findSome? (fun h => (handCalc h cards).map (fun cs => (h, cs)))

/-- A classified hand, the dict `{"id": ..., "cards": ...}` the classifier
builds and the comparator consumes. -/
structure BHand where
  id : Hand
  cards : List Card
deriving DecidableEq, Repr

/-- The tie-break loop of `compare_hands`: walk the category's designated
indices, the first index with differing strengths decides; `none` stands for
the `IndexError` Python would raise when a card list is too short for an
index (impossible for well-formed classified hands). -/
def tiebreakCmp (idxs : List Nat) (ls rs : List Card) : Option Int :=
  match idxs with
  | [] => some 0
  | i :: rest =>
    (ls.get? i).bind (fun lc => (rs.get? i).bind (fun rc =>
      let gap : Int :=
        (get_cardinality_strength lc : Int) - (get_cardinality_strength rc : Int)
      if gap = 0 then tiebreakCmp rest ls rs
      else if 0 < gap then some (-1) else some 1))

/-- `compare_hands`: different categories are decided by the `IntEnum`
value (`-1` when the left hand's category is higher); equal categories fall
through to the tie-break indices of that category. -/
def compare_hands (lhs rhs : BHand) : Option Int :=
  if lhs.id ≠ rhs.id then
    some (if handIntVal rhs.id < handIntVal lhs.id then -1 else 1)
  else tiebreakCmp (tiebreakers lhs.id) lhs.cards rhs.cards

/-- ASCII code of the cardinality character of a rank (`"2"` … `"A"`),
used by the cache key `''.join(sorted(cards))`. -/
def rankChar : Fin 13 → Nat
  | 0 => 50
  | 1 => 51
  | 2 => 52
  | 3 => 53
  | 4 => 54
  | 5 => 55
  | 6 => 56
  | 7 => 57
  | 8 => 84
  | 9 => 74
  | 10 => 81
  | 11 => 75
  | 12 => 65

/-- ASCII code of the suit character (`"h"`, `"d"`, `"s"`, `"c"`). -/
def suitChar : Fin 4 → Nat
  | 0 => 104
  | 1 => 100
  | 2 => 115
  | 3 => 99

/-- Lexicographic code of a card's 2-character token; Python sorts the
tokens by exactly this code. -/
def codeOf (c : Card) : Nat := rankChar c.rank * 256 + suitChar c.suit

/-- The canonical cache key `''.join(sorted(cards))`, kept as the sorted
card list (joining the distinct 2-character tokens is injective, so the
list is a faithful stand-in for the string key). -/
def sortKey (cards : List Card) : List Card :=
  insSort (fun x a => decide (codeOf x < codeOf a)) cards

/-- The evaluation cache `CACHE`, an association list keyed by the
canonical sorted card list (Python dict keys are unique, and the embedding
looks up the most recent binding first). -/
abbrev Cache : Type := List (List Card × BHand)

/-- Dictionary lookup `key in CACHE` / `CACHE[key]`. -/
def cacheLookup : Cache → List Card → Option BHand
  | [], _ => none
  | (k, v) :: rest, key => if k = key then some v else cacheLookup rest key

/-- `get_best_hand` with the global cache made explicit.  The returned
`Bool` records whether the detector scan ran (a cache miss); `none` stands
for the `assert False` fatal branch.  (The source also sets the
`SHOULD_WRITE_CACHE` flag on a miss; no claim mentions it, so it is not
modeled.) -/
def get_best_hand (cache : Cache) (cards : List Card) :
    Option (BHand × Cache × Bool) :=
  let key := sortKey cards
  match cacheLookup cache key with
  | some h => some (h, cache, false)
  | none =>
    match firstSuccess cards with
    | some hc => some (⟨hc.1, hc.2⟩, (key, ⟨hc.1, hc.2⟩) :: cache, true)
    | none => none

/-- The hand-building loop of `get_result`: classify `hand + board` for
each player in order, threading the cache. -/
def classifyAll (cache : Cache) (board : List Card) :
    List (String × List Card) → Option (List (String × BHand) × Cache)
  | [] => some ([], cache)
  | (pos, hand) :: rest =>
    match get_best_hand cache (hand ++ board) with
    | none => none
    | some (bh, cache2, _) =>
      match classifyAll cache2 board rest with
      | none => none
      | some (hs, cache3) => some ((pos, bh) :: hs, cache3)

/-- The rank-assignment loop of `get_result`: the rank grows by one
whenever a hand compares unequal to its predecessor in the sorted order.
`none` stands for a comparator exception (impossible for well-formed
hands). -/
def assignRanks : Nat → BHand → List (String × BHand) →
    Option (List (Nat × String × BHand))
  | _, _, [] => some []
  | rank, prev, (pos, bh) :: rest =>
    match compare_hands prev bh with
    | none => none
    | some g =>
      let rank2 := if g = 0 then rank else rank + 1
      match assignRanks rank2 bh rest with
      | none => none
      | some tl => some ((rank2, pos, bh) :: tl)

/-- `get_result` with the cache explicit: classify every player, sort the
(position, hand) pairs with `compare_hands` (Python's stable sort under
`cmp_to_key`), then assign ranks; `none` also models its
`assert len(sorted_hands) >= 2`. -/
def get_result (cache : Cache) (board : List Card)
    (players : List (String × List Card)) :
    Option (List (Nat × String × BHand) × Cache) :=
  match classifyAll cache board players with
  | none => none
  | some (hands, cache2) =>
    match insSort (fun x a => compare_hands x.2 a.2 == some (-1)) hands with
    | h0 :: h1 :: rest =>
      match assignRanks 0 h0.2 (h1 :: rest) with
      | none => none
      | some tl => some ((0, h0.1, h0.2) :: tl, cache2)
    | _ => none

/-- The 52-card universe `CARDS` (a Python set; the embedding enumerates it
in comprehension order, suits outer). -/
def CARDS_LIST : List Card :=
  (List.finRange 4).flatMap (fun s => (List.finRange 13).map (fun r => ⟨r, s⟩))

/-- A validated configuration: hole cards per fixed position, the board and
the dead cards.  (Key presence and card-token validity are enforced by the
types; Python reads these from JSON.) -/
structure Config where
  btn : List Card
  sb : List Card
  bb : List Card
  utg : List Card
  mp : List Card
  co : List Card
  board : List Card
  dead : List Card
deriving DecidableEq, Repr

/-- The six position entries of a config, in `POSITIONS` order. -/
def positionHands (c : Config) : List (String × List Card) :=
  [("btn", c.btn), ("sb", c.sb), ("bb", c.bb),
   ("utg", c.utg), ("mp", c.mp), ("co", c.co)]

/-- Every card mentioned anywhere in the config (all `config.values()`). -/
def allConfigCards (c : Config) : List Card :=
  c.btn ++ c.sb ++ c.bb ++ c.utg ++ c.mp ++ c.co ++ c.board ++ c.dead

/-- `validate_config` as a predicate: each position holds 0 or 2 cards, the
board at most 5, no card appears twice anywhere (`seen_cards`), and at
least 2 positions are occupied. -/
def validate_config (c : Config) : Bool :=
  (positionHands c).all (fun p => p.2.length == 0 || p.2.length == 2) &&
  decide (c.board.length ≤ 5) &&
  decide (allConfigCards c).Nodup &&
  decide (2 ≤ ((positionHands c).filter (fun p => p.2.length == 2)).length)

/-- `alive_cards`: the 52-card universe minus every card mentioned in the
config. -/
def alive_cards (c : Config) : List Card :=
  CARDS_LIST.filter (fun card => decide (card ∉ allConfigCards c))

/-- Per-player record of `main`'s `players` dict: hole cards and the
running win/tie counts. -/
structure PlayerTally where
  hand : List Card
  wins : Nat
  ties : Nat
deriving DecidableEq, Repr

/-- The state of `main`'s enumeration loop.  `tieOutcomes` instruments the
loop with the number of outcomes whose rank-0 group had more than one
player (it is not a variable of the source; it makes the conservation
claim statable). -/
structure SimState where
  players : List (String × PlayerTally)
  outcomes : Nat
  tieOutcomes : Nat
  cache : Cache
deriving DecidableEq, Repr

/-- `players = {pos: ... for pos, hand in config.items() if pos in
POSITIONS and len(hand) == 2}`.  The Python dict iterates in config-file
key order; the embedding fixes `POSITIONS` order, which no claim can
observe (only per-position tallies and sums are used). -/
def initPlayers (c : Config) : List (String × PlayerTally) :=
  ((positionHands c).filter (fun p => p.2.length == 2)).map
    (fun p => (p.1, ⟨p.2, 0, 0⟩))

/-- Forget the tallies, keeping `(position, hole cards)`. -/
def playerPairs (ps : List (String × PlayerTally)) : List (String × List Card) :=
  ps.map (fun p => (p.1, p.2.hand))

/-- `players[winner][key] += 1` for one winner. -/
def addWin (ps : List (String × PlayerTally)) (pos : String) (isTie : Bool) :
    List (String × PlayerTally) :=
  ps.map (fun p =>
    if p.1 = pos then
      (p.1, if isTie then ⟨p.2.hand, p.2.wins, p.2.ties + 1⟩
            else ⟨p.2.hand, p.2.wins + 1, p.2.ties⟩)
    else p)

/-- The `for winner in winners` increment loop. -/
def applyWinners (ps : List (String × PlayerTally)) (winners : List String)
    (isTie : Bool) : List (String × PlayerTally) :=
  winners.foldl (fun acc w => addWin acc w isTie) ps

/-- One iteration of `main`'s enumeration loop for the candidate completion
`comb`: compute the result on `known_board + comb`, collect the rank-0
records, assert they are nonempty, and bump `ties` (several winners) or
`wins` (a single winner) for each of them. -/
def stepOutcome (board : List Card) (st : SimState) (comb : List Card) :
    Option SimState :=
  match get_result st.cache (board ++ comb) (playerPairs st.players) with
  | none => none
  | some (result, cache2) =>
    let winners := (result.filter (fun r => r.1 == 0)).map (fun r => r.2.1)
    match winners with
    | [] => none
    | w :: ws =>
      let isTie := decide (1 < (w :: ws).length)
      some ⟨applyWinners st.players (w :: ws) isTie, st.outcomes + 1,
            st.tieOutcomes + (if isTie then 1 else 0), cache2⟩

/-- The equity computation of `main` from `alive = alive_cards(config)`
onward (the part after the early `exit(1)`; claims about the enumerator and
aggregator are settled against this function).  A complete 5-card board
computes a single `get_result` whose outcome is discarded, leaving every
tally untouched and `outcomes = 1`; otherwise every size-`(5 - len(board))`
combination of the alive pool is processed. -/
def run_equity (cache0 : Cache) (c : Config) : Option SimState :=
  let players0 := initPlayers c
  let known := c.board
  if known.length = 5 then
    match get_result cache0 known (playerPairs players0) with
    | none => none
    | some rc => some ⟨players0, 1, 0, rc.2⟩
  else
    (List.sublistsLen (5 - known.length) (alive_cards c)).foldlM
      (stepOutcome known) ⟨players0, 0, 0, cache0⟩

/-- Sum of the win counters of all players. -/
def sumWins (ps : List (String × PlayerTally)) : Nat :=
  (ps.map (fun p => p.2.wins)).sum

/-- Sum of the tie counters of all players. -/
def sumTies (ps : List (String × PlayerTally)) : Nat :=
  (ps.map (fun p => p.2.ties)).sum

/-- `hash_config`: it builds (and prints) the sorted item list — keys in
alphabetical order (`bb, board, btn, co, dead, mp, sb, utg`), each value
sorted — then sets `key = 0` and returns it. -/
def hash_config (c : Config) : Nat :=
  let _items := sortKey c.bb ++ sortKey c.board ++ sortKey c.btn ++
    sortKey c.co ++ sortKey c.dead ++ sortKey c.mp ++ sortKey c.sb ++
    sortKey c.utg
  0

/-- The statements of `main` after a configuration has passed validation,
as abstract steps in source order. -/
inductive MainStep where
  | readConfigStep
  | loadSpotsStep
  | hashConfigStep
  | exitStep (code : Nat)
  | aliveCardsStep
  | loadTableStep
  | enumerateStep
  | printEquitiesStep
  | storeTableCallStep
deriving DecidableEq, Repr

/-- The straight-line body of `main` on a run whose configuration passes
validation: read and validate the config, load the spots file, call
`hash_config`, then the unconditional `exit(1)`, and only after it the
alive-pool computation, cache load, board enumeration with equity
aggregation, result printing and the final cache write-back call. -/
def mainBody : List MainStep :=
  [.readConfigStep, .loadSpotsStep, .hashConfigStep, .exitStep 1,
   .aliveCardsStep, .loadTableStep, .enumerateStep, .printEquitiesStep,
   .storeTableCallStep]

/-- `exit` aborts the process: the executed steps are the prefix up to and
including the first `exitStep`. -/
def executedSteps : List MainStep → List MainStep
  | [] => []
  | s :: rest =>
    match s with
    | .exitStep c => [.exitStep c]
    | _ => s :: executedSteps rest

/-- The function names the module defines (its `def` statements). -/
def definedNames : List String :=
  ["get_cardinality_strength", "validate_config", "read_config",
   "alive_cards", "get_n_of_kind", "get_pair", "get_two_pair",
   "get_three_of_kind", "get_full_house", "get_quads", "get_flush",
   "get_straight", "get_straight_flush", "get_royal_flush",
   "get_high_card", "compare_hands", "get_best_hand", "get_result",
   "calculate_equities", "load_table", "store_tables", "load_spots",
   "hash_config", "main"]

/-- The name `main`'s last statement calls for the cache write-back. -/
def mainFinalCallName : String := "store_table"

/-- Rank-level mirror of `scanLoop`: `p = r` is a gap of 0, `p = r + 1` a
gap of 1, anything else resets only a run shorter than 5. -/
def scanR : Nat → List Nat → List Nat → List Nat
  | _, made, [] => made
  | p, made, r :: rest =>
    if p = r then scanR r made rest
    else if p = r + 1 then scanR r (made ++ [r]) rest
    else if made.length < 5 then scanR r [r] rest
    else scanR r made rest

/-- Rank-level mirror of `get_straight` on a descending strength list. -/
def straightR : List Nat → Option (List Nat)
  | [] => none
  | r0 :: rest =>
    let made := scanR r0 [r0] rest
    let made2 :=
      if (r0 :: rest).getLastD r0 = 0 ∧ r0 = 12 then made ++ [r0] else made
    if 5 ≤ made2.length then some (made2.take 5) else none

/-- Drop elements equal to the running previous value: on a descending
list this removes exactly the duplicate ranks the scan skips via gap 0. -/
def dedupFrom : Nat → List Nat → List Nat
  | _, [] => []
  | p, r :: rest => if r = p then dedupFrom p rest else r :: dedupFrom r rest

/-- Remove adjacent duplicates of a (sorted) list. -/
def dedupWhole : List Nat → List Nat
  | [] => []
  | h :: t => h :: dedupFrom h t

/-- The 13 ranks in descending order. -/
def DESC13 : List Nat := [12, 11, 10, 9, 8, 7, 6, 5, 4, 3, 2, 1, 0]

/-- The strictly descending list of the ranks present in the bitmask `m`. -/
def descRanks (m : Nat) : List Nat := DESC13.filter (fun r => m.testBit r)

/-- The bitmask of ranks present in a card set. -/
def maskOf (cards : List Card) : Nat :=
  cards.foldr (fun c acc => acc ||| 2 ^ get_cardinality_strength c) 0

/-- `runAt m t`: the five consecutive ranks `t, t-1, t-2, t-3, t-4` are
all present in `m` — a straight whose designated high rank is `t`. -/
def runAt (m t : Nat) : Bool :=
  decide (4 ≤ t) && m.testBit t && m.testBit (t-1) && m.testBit (t-2) &&
    m.testBit (t-3) && m.testBit (t-4)

/-- The high rank of the best (highest) 5-consecutive-rank run in `m`. -/
def topRun (m : Nat) : Option Nat := DESC13.find? (runAt m)

/-- The wheel ranks `5,4,3,2` plus an Ace are present in `m`. -/
def wheelM (m : Nat) : Bool :=
  m.testBit 0 && m.testBit 1 && m.testBit 2 && m.testBit 3 && m.testBit 12

/-- The rank-level specification of `get_straight` for the rank set `m`:
the best run when one exists, the wheel `[5,4,3,2,A]` (strengths
`[3,2,1,0,12]`) when only the wheel is present, `none` otherwise. -/
def straightSpec (m : Nat) : Bool :=
  match topRun m with
  | some t => decide (straightR (descRanks m) = some [t, t-1, t-2, t-3, t-4])
  | none =>
    if wheelM m then decide (straightR (descRanks m) = some [3, 2, 1, 0, 12])
    else decide (straightR (descRanks m) = none)

/-- `straightSpec`, short-circuited to `true` for rank sets with more than
7 ranks, which no 5-7 card set can produce. -/
def specSmall (m : Nat) : Bool :=
  if 7 < (descRanks m).length then true else straightSpec m

/-- `allTree f d lo` checks `f` on the `2 ^ d` numbers `lo * 2 ^ d + i`,
recursing in a balanced tree so kernel reduction stays shallow. -/
def allTree (f : Nat → Bool) : Nat → Nat → Bool
  | 0, lo => f lo
  | d+1, lo => allTree f d (2*lo) && allTree f d (2*lo+1)

theorem allTree_sound (f : Nat → Bool) :
    ∀ d lo, allTree f d lo = true → ∀ m, m < 2 ^ d →
      f (lo * 2 ^ d + m) = true := by
  intro d
  induction d with
  | zero =>
    intro lo h m hm
    interval_cases m
    simpa [allTree] using h
  | succ d ih =>
    intro lo h m hm
    have hsplit : allTree f d (2*lo) = true ∧ allTree f d (2*lo+1) = true := by
      have hh : (allTree f d (2*lo) && allTree f d (2*lo+1)) = true := by
        simpa [allTree] using h
      exact ⟨(Bool.and_eq_true _ _).mp hh |>.1, (Bool.and_eq_true _ _).mp hh |>.2⟩
    rcases hsplit with ⟨h1, h2⟩
    by_cases hlt : m < 2 ^ d
    · have hres := ih (2*lo) h1 m hlt
      have harith : (2*lo) * 2 ^ d + m = lo * 2 ^ (d+1) + m := by ring_nf
      rwa [harith] at hres
    · have hm2 : m - 2 ^ d < 2 ^ d := by
        have hp : (2:Nat) ^ (d+1) = 2 ^ d + 2 ^ d := by ring
        omega
      have hres := ih (2*lo+1) h2 (m - 2 ^ d) hm2
      have harith : (2*lo+1) * 2 ^ d + (m - 2 ^ d) = lo * 2 ^ (d+1) + m := by
        have hge := Nat.not_lt.mp hlt
        have hx : (2*lo+1) * 2 ^ d = lo * 2 ^ (d+1) + 2 ^ d := by ring
        omega
      rwa [harith] at hres

set_option maxHeartbeats 16000000 in
theorem sTab0 : allTree specSmall 10 0 = true := by decide
set_option maxHeartbeats 16000000 in
theorem sTab1 : allTree specSmall 10 1 = true := by decide
set_option maxHeartbeats 16000000 in
theorem sTab2 : allTree specSmall 10 2 = true := by decide
set_option maxHeartbeats 16000000 in
theorem sTab3 : allTree specSmall 10 3 = true := by decide
set_option maxHeartbeats 16000000 in
theorem sTab4 : allTree specSmall 10 4 = true := by decide
set_option maxHeartbeats 16000000 in
theorem sTab5 : allTree specSmall 10 5 = true := by decide
set_option maxHeartbeats 16000000 in
theorem sTab6 : allTree specSmall 10 6 = true := by decide
set_option maxHeartbeats 16000000 in
theorem sTab7 : allTree specSmall 10 7 = true := by decide

/-- The verified straight table: the rank-level `get_straight` mirror meets
its specification on every rank set of at most 7 ranks. -/
theorem straightTable (m : Nat) (hm : m < 8192)
    (hsmall : (descRanks m).length ≤ 7) : straightSpec m = true := by
  have hchunk : ∀ k, k < 8 → ∀ i, i < 1024 → specSmall (k * 1024 + i) = true := by
    intro k hk i hi
    interval_cases k
    · exact allTree_sound specSmall 10 0 sTab0 i hi
    · exact allTree_sound specSmall 10 1 sTab1 i hi
    · exact allTree_sound specSmall 10 2 sTab2 i hi
    · exact allTree_sound specSmall 10 3 sTab3 i hi
    · exact allTree_sound specSmall 10 4 sTab4 i hi
    · exact allTree_sound specSmall 10 5 sTab5 i hi
    · exact allTree_sound specSmall 10 6 sTab6 i hi
    · exact allTree_sound specSmall 10 7 sTab7 i hi
  have hdiv : m / 1024 < 8 := by omega
  have hmod : m % 1024 < 1024 := Nat.mod_lt _ (by omega)
  have hsplit : m / 1024 * 1024 + m % 1024 = m := by omega
  have hall : specSmall m = true := by
    have := hchunk (m / 1024) hdiv (m % 1024) hmod
    rwa [hsplit] at this
  unfold specSmall at hall
  rw [if_neg (by omega : ¬ 7 < (descRanks m).length)] at hall
  exact hall

theorem sortDesc_perm (cards : List Card) : List.Perm (sortDesc cards) cards :=
  insSort_perm _ _

theorem sortDesc_pairwise (cards : List Card) :
    (sortDesc cards).Pairwise
      (fun u v => get_cardinality_strength v ≤ get_cardinality_strength u) := by
  have h := insSort_pairwise
    (fun x a => decide (get_cardinality_strength a < get_cardinality_strength x))
    (by intro x y hxy
        simp only [decide_eq_true_eq] at hxy
        simp only [decide_eq_false_iff_not]
        omega)
    (by intro x y z hxy hyz
        simp only [decide_eq_false_iff_not] at hxy hyz
        simp only [decide_eq_false_iff_not]
        omega)
    cards
  refine h.imp ?_
  intro u v huv
  simp only [decide_eq_false_iff_not] at huv
  omega

theorem scanLoop_map (l : List Card) : ∀ (p : Card) (made : List Card),
    (scanLoop p made l).map get_cardinality_strength =
      scanR (get_cardinality_strength p) (made.map get_cardinality_strength)
        (l.map get_cardinality_strength) := by
  induction l with
  | nil => intro p made; rfl
  | cons c rest ih =>
    intro p made
    have hg0 : ((get_cardinality_strength p : Int) -
        (get_cardinality_strength c : Int) = 0) ↔
        get_cardinality_strength p = get_cardinality_strength c := by omega
    have hg1 : ((get_cardinality_strength p : Int) -
        (get_cardinality_strength c : Int) = 1) ↔
        get_cardinality_strength p = get_cardinality_strength c + 1 := by omega
    simp only [scanLoop, scanR, List.map_cons]
    by_cases hA : get_cardinality_strength p = get_cardinality_strength c
    · rw [if_pos (hg0.mpr hA), if_pos hA]
      exact ih c made
    · rw [if_neg (fun h => hA (hg0.mp h)), if_neg hA]
      by_cases hB : get_cardinality_strength p = get_cardinality_strength c + 1
      · rw [if_pos (hg1.mpr hB), if_pos hB]
        have := ih c (made ++ [c])
        simpa [List.map_append] using this
      · rw [if_neg (fun h => hB (hg1.mp h)), if_neg hB]
        simp only [List.length_map]
        by_cases hC : made.length < 5
        · rw [if_pos hC, if_pos hC]
          exact ih c [c]
        · rw [if_neg hC, if_neg hC]
          exact ih c made

theorem scanR_dedup (l : List Nat) : ∀ (p : Nat) (made : List Nat),
    scanR p made l = scanR p made (dedupFrom p l) := by
  induction l with
  | nil => intro p made; rfl
  | cons r rest ih =>
    intro p made
    by_cases hA : r = p
    · subst hA
      simp only [dedupFrom, if_pos rfl, if_true, scanR]
      exact ih r made
    · simp only [dedupFrom, if_neg hA, scanR, if_neg (Ne.symm hA)]
      by_cases hB : p = r + 1
      · rw [if_pos hB, if_pos hB]
        exact ih r (made ++ [r])
      · rw [if_neg hB, if_neg hB]
        by_cases hC : made.length < 5
        · rw [if_pos hC, if_pos hC]
          exact ih r [r]
        · rw [if_neg hC, if_neg hC]
          exact ih r made

theorem dedupFrom_mem (l : List Nat) : ∀ (p : Nat),
    (p :: l).Pairwise (fun a b => b ≤ a) →
    ∀ x, x ∈ dedupFrom p l ↔ (x ∈ l ∧ x ≠ p) := by
  induction l with
  | nil => intro p _ x; simp [dedupFrom]
  | cons r rest ih =>
    intro p hpw x
    rcases List.pairwise_cons.mp hpw with ⟨hple, hrw⟩
    rcases List.pairwise_cons.mp hrw with ⟨hrle, hrest⟩
    have hrp : r ≤ p := hple r (List.mem_cons_self _ _)
    by_cases hA : r = p
    · subst hA
      simp only [dedupFrom, if_pos rfl, if_true]
      have hpw2 : (r :: rest).Pairwise (fun a b => b ≤ a) :=
        List.pairwise_cons.mpr ⟨hrle, hrest⟩
      rw [ih r hpw2 x]
      constructor
      · rintro ⟨hx, hne⟩; exact ⟨List.mem_cons_of_mem _ hx, hne⟩
      · rintro ⟨hx, hne⟩
        rcases List.mem_cons.mp hx with h | h
        · exact absurd h hne
        · exact ⟨h, hne⟩
    · have hrlt : r < p := lt_of_le_of_ne hrp hA
      simp only [dedupFrom, if_neg hA, List.mem_cons]
      have hpw2 : (r :: rest).Pairwise (fun a b => b ≤ a) :=
        List.pairwise_cons.mpr ⟨hrle, hrest⟩
      rw [ih r hpw2 x]
      constructor
      · rintro (h | ⟨hx, hne⟩)
        · subst h; exact ⟨Or.inl rfl, by omega⟩
        · have := hrle x hx
          exact ⟨Or.inr hx, by omega⟩
      · rintro ⟨h | h, hne⟩
        · exact Or.inl h
        · by_cases hxr : x = r
          · exact Or.inl hxr
          · exact Or.inr ⟨h, hxr⟩

theorem dedupFrom_strict (l : List Nat) : ∀ (p : Nat),
    (p :: l).Pairwise (fun a b => b ≤ a) →
    (dedupFrom p l).Pairwise (fun a b => b < a) ∧
      ∀ x ∈ dedupFrom p l, x < p := by
  induction l with
  | nil => intro p _; exact ⟨List.Pairwise.nil, by intro x hx; cases hx⟩
  | cons r rest ih =>
    intro p hpw
    rcases List.pairwise_cons.mp hpw with ⟨hple, hrw⟩
    rcases List.pairwise_cons.mp hrw with ⟨hrle, hrest⟩
    have hrp : r ≤ p := hple r (List.mem_cons_self _ _)
    have hpw2 : (r :: rest).Pairwise (fun a b => b ≤ a) :=
      List.pairwise_cons.mpr ⟨hrle, hrest⟩
    by_cases hA : r = p
    · subst hA
      simp only [dedupFrom, if_pos rfl, if_true]
      exact ih r hpw2
    · have hrlt : r < p := lt_of_le_of_ne hrp hA
      rcases ih r hpw2 with ⟨hpwd, hblt⟩
      simp only [dedupFrom, if_neg hA]
      constructor
      · exact List.pairwise_cons.mpr ⟨hblt, hpwd⟩
      · intro x hx
        rcases List.mem_cons.mp hx with h | h
        · omega
        · have := hblt x h
          omega

theorem dedupFrom_getLastD (l : List Nat) : ∀ (p : Nat),
    (dedupFrom p l).getLastD p = l.getLastD p := by
  induction l with
  | nil => intro p; rfl
  | cons r rest ih =>
    intro p
    by_cases hA : r = p
    · subst hA
      simp only [dedupFrom, if_pos rfl, if_true, List.getLastD_cons]
      exact ih r
    · simp only [dedupFrom, if_neg hA, List.getLastD_cons]
      exact ih r

theorem dedupFrom_length (l : List Nat) : ∀ (p : Nat),
    (dedupFrom p l).length ≤ l.length := by
  induction l with
  | nil => intro p; exact Nat.le_refl 0
  | cons r rest ih =>
    intro p
    by_cases hA : r = p
    · simp only [dedupFrom, if_pos hA, List.length_cons]
      exact Nat.le_succ_of_le (ih p)
    · simp only [dedupFrom, if_neg hA, List.length_cons]
      exact Nat.succ_le_succ (ih r)

theorem strictDesc_eq (l1 : List Nat) : ∀ (l2 : List Nat),
    l1.Pairwise (fun a b => b < a) → l2.Pairwise (fun a b => b < a) →
    (∀ x, x ∈ l1 ↔ x ∈ l2) → l1 = l2 := by
  induction l1 with
  | nil =>
    intro l2 _ _ hm
    cases l2 with
    | nil => rfl
    | cons b t2 => exact absurd ((hm b).mpr (List.mem_cons_self _ _)) (by simp)
  | cons a t1 ih =>
    intro l2 hpw1 hpw2 hm
    cases l2 with
    | nil => exact absurd ((hm a).mp (List.mem_cons_self _ _)) (by simp)
    | cons b t2 =>
      rcases List.pairwise_cons.mp hpw1 with ⟨ha1, hpt1⟩
      rcases List.pairwise_cons.mp hpw2 with ⟨hb2, hpt2⟩
      have hab : a = b := by
        rcases List.mem_cons.mp ((hm a).mp (List.mem_cons_self _ _)) with h | h
        · exact h
        · rcases List.mem_cons.mp ((hm b).mpr (List.mem_cons_self _ _)) with h2 | h2
          · omega
          · have := hb2 a h
            have := ha1 b h2
            omega
      subst hab
      have hmt : ∀ x, x ∈ t1 ↔ x ∈ t2 := by
        intro x
        constructor
        · intro hx
          have hxa := ha1 x hx
          rcases List.mem_cons.mp ((hm x).mp (List.mem_cons_of_mem _ hx)) with h | h
          · omega
          · exact h
        · intro hx
          have hxa := hb2 x hx
          rcases List.mem_cons.mp ((hm x).mpr (List.mem_cons_of_mem _ hx)) with h | h
          · omega
          · exact h
      rw [ih t2 hpt1 hpt2 hmt]

theorem maskOf_testBit (cards : List Card) (i : Nat) :
    (maskOf cards).testBit i = true ↔
      ∃ c ∈ cards, get_cardinality_strength c = i := by
  induction cards with
  | nil =>
    simp only [maskOf, List.foldr_nil, Nat.zero_testBit]
    simp
  | cons c rest ih =>
    have hstep : maskOf (c :: rest) =
        maskOf rest ||| 2 ^ get_cardinality_strength c := rfl
    rw [hstep, Nat.testBit_or, Nat.testBit_two_pow]
    constructor
    · intro h
      rcases Bool.or_eq_true _ _ |>.mp h with h | h
      · rcases ih.mp h with ⟨d, hd, hs⟩
        exact ⟨d, List.mem_cons_of_mem _ hd, hs⟩
      · exact ⟨c, List.mem_cons_self _ _, of_decide_eq_true h⟩
    · rintro ⟨d, hd, hs⟩
      rcases List.mem_cons.mp hd with h | h
      · subst h
        exact Bool.or_eq_true _ _ |>.mpr (Or.inr (decide_eq_true hs))
      · exact Bool.or_eq_true _ _ |>.mpr (Or.inl (ih.mpr ⟨d, h, hs⟩))

theorem maskOf_lt (cards : List Card) : maskOf cards < 8192 := by
  induction cards with
  | nil => exact Nat.zero_lt_succ _
  | cons c rest ih =>
    have hstep : maskOf (c :: rest) =
        maskOf rest ||| 2 ^ get_cardinality_strength c := rfl
    rw [hstep]
    have hc : get_cardinality_strength c < 13 := c.rank.isLt
    have hp : (2 : Nat) ^ get_cardinality_strength c < 2 ^ 13 :=
      Nat.pow_lt_pow_right (by omega) hc
    have h13 : (8192 : Nat) = 2 ^ 13 := by norm_num
    rw [h13] at ih ⊢
    exact Nat.or_lt_two_pow ih hp

theorem mem_DESC13 (r : Nat) : r ∈ DESC13 ↔ r < 13 := by
  simp only [DESC13, List.mem_cons, List.not_mem_nil, or_false]
  omega

theorem descRanks_pairwise (m : Nat) :
    (descRanks m).Pairwise (fun a b => b < a) := by
  have hd : DESC13.Pairwise (fun a b => b < a) := by decide
  exact hd.filter _

theorem mem_descRanks (m r : Nat) :
    r ∈ descRanks m ↔ r < 13 ∧ m.testBit r = true := by
  unfold descRanks
  rw [List.mem_filter, mem_DESC13]

theorem dedupWhole_pairwise (l : List Nat)
    (hl : l.Pairwise (fun a b => b ≤ a)) :
    (dedupWhole l).Pairwise (fun a b => b < a) := by
  cases l with
  | nil => exact List.Pairwise.nil
  | cons x xs =>
    rcases dedupFrom_strict xs x hl with ⟨hpw, hlt⟩
    exact List.pairwise_cons.mpr ⟨hlt, hpw⟩

theorem mem_dedupWhole (l : List Nat)
    (hl : l.Pairwise (fun a b => b ≤ a)) (x : Nat) :
    x ∈ dedupWhole l ↔ x ∈ l := by
  cases l with
  | nil => exact Iff.rfl
  | cons a xs =>
    simp only [dedupWhole, List.mem_cons]
    rw [dedupFrom_mem xs a hl x]
    by_cases hx : x = a
    · subst hx; simp
    · simp [hx]

theorem dedupWhole_getLastD (l : List Nat) (d : Nat) (hne : l ≠ []) :
    (dedupWhole l).getLastD d = l.getLastD d := by
  cases l with
  | nil => exact absurd rfl hne
  | cons a xs =>
    simp only [dedupWhole, List.getLastD_cons]
    exact dedupFrom_getLastD xs a

theorem dedupWhole_length (l : List Nat) :
    (dedupWhole l).length ≤ l.length := by
  cases l with
  | nil => exact Nat.le_refl 0
  | cons a xs =>
    simp only [dedupWhole, List.length_cons]
    exact Nat.succ_le_succ (dedupFrom_length xs a)

theorem sortDesc_strength_pairwise (cards : List Card) :
    ((sortDesc cards).map get_cardinality_strength).Pairwise
      (fun a b => b ≤ a) :=
  List.Pairwise.map get_cardinality_strength (fun _ _ h => h)
    (sortDesc_pairwise cards)

theorem descRanks_maskOf (cards : List Card) :
    descRanks (maskOf cards) =
      dedupWhole ((sortDesc cards).map get_cardinality_strength) := by
  apply strictDesc_eq
  · exact descRanks_pairwise _
  · exact dedupWhole_pairwise _ (sortDesc_strength_pairwise cards)
  · intro x
    rw [mem_descRanks, mem_dedupWhole _ (sortDesc_strength_pairwise cards)]
    rw [List.mem_map]
    constructor
    · rintro ⟨_, hbit⟩
      rcases (maskOf_testBit cards x).mp hbit with ⟨c, hc, hs⟩
      exact ⟨c, (sortDesc_perm cards).mem_iff.mpr hc, hs⟩
    · rintro ⟨c, hc, hs⟩
      have hc2 : c ∈ cards := (sortDesc_perm cards).mem_iff.mp hc
      refine ⟨?_, (maskOf_testBit cards x).mpr ⟨c, hc2, hs⟩⟩
      rw [← hs]
      exact c.rank.isLt

theorem getLastD_map (f : Card → Nat) (l : List Card) : ∀ (d : Card),
    (l.map f).getLastD (f d) = f (l.getLastD d) := by
  induction l with
  | nil => intro d; rfl
  | cons a xs ih =>
    intro d
    simp only [List.map_cons, List.getLastD_cons]
    exact ih a

theorem get_straight_ranks (cards : List Card) (hne : cards ≠ []) :
    (get_straight cards).map (fun l => l.map get_cardinality_strength) =
      straightR (descRanks (maskOf cards)) := by
  obtain ⟨c0, rest, hs⟩ : ∃ c0 rest, sortDesc cards = c0 :: rest := by
    cases hsd : sortDesc cards with
    | nil =>
      exfalso
      apply hne
      have hp := sortDesc_perm cards
      rw [hsd] at hp
      exact hp.symm.eq_nil
    | cons a b => exact ⟨a, b, rfl⟩
  have hdr : descRanks (maskOf cards) =
      get_cardinality_strength c0 ::
        dedupFrom (get_cardinality_strength c0)
          (rest.map get_cardinality_strength) := by
    rw [descRanks_maskOf, hs]
    rfl
  rw [hdr]
  have hmap : (scanLoop c0 [c0] rest).map get_cardinality_strength =
      scanR (get_cardinality_strength c0) [get_cardinality_strength c0]
        (dedupFrom (get_cardinality_strength c0)
          (rest.map get_cardinality_strength)) := by
    have h1 := scanLoop_map rest c0 [c0]
    have h2 := scanR_dedup (rest.map get_cardinality_strength)
      (get_cardinality_strength c0) [get_cardinality_strength c0]
    simpa using h1.trans h2
  have hG : get_straight cards =
      (if get_cardinality_strength ((c0 :: rest).getLastD c0) = 0 ∧
            get_cardinality_strength c0 = 12
        then (if 5 ≤ (scanLoop c0 [c0] rest ++ [c0]).length
          then some ((scanLoop c0 [c0] rest ++ [c0]).take 5) else none)
        else (if 5 ≤ (scanLoop c0 [c0] rest).length
          then some ((scanLoop c0 [c0] rest).take 5) else none)) := by
    unfold get_straight
    rw [hs]
    by_cases hw : get_cardinality_strength ((c0 :: rest).getLastD c0) = 0 ∧
        get_cardinality_strength c0 = 12
    · simp only [if_pos hw]
    · simp only [if_neg hw]
  have hR : straightR (get_cardinality_strength c0 ::
        dedupFrom (get_cardinality_strength c0)
          (rest.map get_cardinality_strength)) =
      (if (get_cardinality_strength c0 ::
            dedupFrom (get_cardinality_strength c0)
              (rest.map get_cardinality_strength)).getLastD
              (get_cardinality_strength c0) = 0 ∧
            get_cardinality_strength c0 = 12
        then (if 5 ≤ (scanR (get_cardinality_strength c0)
              [get_cardinality_strength c0]
              (dedupFrom (get_cardinality_strength c0)
                (rest.map get_cardinality_strength)) ++
                [get_cardinality_strength c0]).length
          then some ((scanR (get_cardinality_strength c0)
              [get_cardinality_strength c0]
              (dedupFrom (get_cardinality_strength c0)
                (rest.map get_cardinality_strength)) ++
                [get_cardinality_strength c0]).take 5) else none)
        else (if 5 ≤ (scanR (get_cardinality_strength c0)
              [get_cardinality_strength c0]
              (dedupFrom (get_cardinality_strength c0)
                (rest.map get_cardinality_strength))).length
          then some ((scanR (get_cardinality_strength c0)
              [get_cardinality_strength c0]
              (dedupFrom (get_cardinality_strength c0)
                (rest.map get_cardinality_strength))).take 5) else none)) := by
    unfold straightR
    by_cases hw : (get_cardinality_strength c0 ::
        dedupFrom (get_cardinality_strength c0)
          (rest.map get_cardinality_strength)).getLastD
          (get_cardinality_strength c0) = 0 ∧
        get_cardinality_strength c0 = 12
    · simp only [if_pos hw]
    · simp only [if_neg hw]
  rw [hG, hR]
  have hlasteq : (get_cardinality_strength c0 ::
      dedupFrom (get_cardinality_strength c0)
        (rest.map get_cardinality_strength)).getLastD
        (get_cardinality_strength c0) =
      get_cardinality_strength ((c0 :: rest).getLastD c0) := by
    simp only [List.getLastD_cons]
    rw [dedupFrom_getLastD]
    exact getLastD_map _ rest c0
  rw [hlasteq]
  have hlenR : (scanR (get_cardinality_strength c0) [get_cardinality_strength c0]
      (dedupFrom (get_cardinality_strength c0)
        (rest.map get_cardinality_strength))).length =
      (scanLoop c0 [c0] rest).length := by
    rw [← hmap, List.length_map]
  by_cases hw : get_cardinality_strength ((c0 :: rest).getLastD c0) = 0 ∧
      get_cardinality_strength c0 = 12
  · rw [if_pos hw, if_pos hw]
    simp only [List.length_append, List.length_singleton, hlenR]
    by_cases h5 : 5 ≤ (scanLoop c0 [c0] rest).length + 1
    · rw [if_pos h5, if_pos h5]
      simp only [Option.map_some']
      congr 1
      rw [← hmap,
        show [get_cardinality_strength c0] =
          List.map get_cardinality_strength [c0] from rfl,
        ← List.map_append, List.map_take]
    · rw [if_neg h5, if_neg h5]
      rfl
  · rw [if_neg hw, if_neg hw]
    simp only [hlenR]
    by_cases h5 : 5 ≤ (scanLoop c0 [c0] rest).length
    · rw [if_pos h5, if_pos h5]
      simp only [Option.map_some']
      congr 1
      rw [← hmap, List.map_take]
    · rw [if_neg h5, if_neg h5]
      rfl

theorem descRanks_maskOf_length (cards : List Card) :
    (descRanks (maskOf cards)).length ≤ cards.length := by
  rw [descRanks_maskOf]
  calc (dedupWhole ((sortDesc cards).map get_cardinality_strength)).length
      ≤ ((sortDesc cards).map get_cardinality_strength).length :=
        dedupWhole_length _
    _ = (sortDesc cards).length := List.length_map _ _
    _ = cards.length := (sortDesc_perm cards).length_eq

/-- `get_straight` meets the rank-level straight specification on every
card set of at most 7 cards: the best run when one exists, the wheel with
the 5 first when only the wheel is present, `none` otherwise. -/
theorem straight_spec_cards (cards : List Card) (hne : cards ≠ [])
    (hlen : cards.length ≤ 7) :
    (∀ t, topRun (maskOf cards) = some t →
      (get_straight cards).map (fun l => l.map get_cardinality_strength) =
        some [t, t-1, t-2, t-3, t-4]) ∧
    (topRun (maskOf cards) = none → wheelM (maskOf cards) = true →
      (get_straight cards).map (fun l => l.map get_cardinality_strength) =
        some [3, 2, 1, 0, 12]) ∧
    (topRun (maskOf cards) = none → wheelM (maskOf cards) = false →
      get_straight cards = none) := by
  have htab := straightTable (maskOf cards) (maskOf_lt cards)
    (le_trans (descRanks_maskOf_length cards) hlen)
  unfold straightSpec at htab
  refine ⟨?_, ?_, ?_⟩
  · intro t ht
    rw [ht] at htab
    rw [get_straight_ranks cards hne]
    exact of_decide_eq_true htab
  · intro ht hwl
    rw [ht, hwl] at htab
    rw [get_straight_ranks cards hne]
    exact of_decide_eq_true (by simpa using htab)
  · intro ht hwl
    rw [ht, hwl] at htab
    have hrnone : straightR (descRanks (maskOf cards)) = none :=
      of_decide_eq_true (by simpa using htab)
    have h2 := get_straight_ranks cards hne
    rw [hrnone] at h2
    exact Option.map_eq_none'.mp h2

theorem topRun_ge4 (m t : Nat) (h : topRun m = some t) : 4 ≤ t := by
  have hp := List.find?_some h
  unfold runAt at hp
  have := (Bool.and_eq_true _ _).mp hp
  have := (Bool.and_eq_true _ _).mp this.1
  have := (Bool.and_eq_true _ _).mp this.1
  have := (Bool.and_eq_true _ _).mp this.1
  have := (Bool.and_eq_true _ _).mp this.1
  exact of_decide_eq_true this.1

theorem get_straight_nodup (cards : List Card) (hne : cards ≠ [])
    (hlen : cards.length ≤ 7) (res : List Card)
    (hres : get_straight cards = some res) : res.Nodup := by
  rcases straight_spec_cards cards hne hlen with ⟨hrun, hwheel, hnone⟩
  have hnodup : (res.map get_cardinality_strength).Nodup := by
    cases ht : topRun (maskOf cards) with
    | some t =>
      have h := hrun t ht
      rw [hres] at h
      simp only [Option.map_some'] at h
      rw [Option.some_inj.mp h]
      have h4 := topRun_ge4 _ _ ht
      refine List.nodup_cons.mpr ⟨?_, List.nodup_cons.mpr ⟨?_,
        List.nodup_cons.mpr ⟨?_, List.nodup_cons.mpr
          ⟨?_, List.nodup_singleton _⟩⟩⟩⟩ <;>
      · simp only [List.mem_cons, List.mem_singleton, List.not_mem_nil,
          or_false]
        omega
    | none =>
      cases hwl : wheelM (maskOf cards) with
      | false =>
        have := hnone ht hwl
        rw [hres] at this
        cases this
      | true =>
        have h := hwheel ht hwl
        rw [hres] at h
        simp only [Option.map_some'] at h
        rw [Option.some_inj.mp h]
        decide
  exact List.Nodup.of_map _ hnodup

theorem scanLoop_subset (l : List Card) : ∀ (p : Card) (made : List Card)
    (x : Card), x ∈ scanLoop p made l → x ∈ made ∨ x ∈ l := by
  induction l with
  | nil => intro p made x hx; exact Or.inl hx
  | cons c rest ih =>
    intro p made x hx
    simp only [scanLoop] at hx
    by_cases h0 : (get_cardinality_strength p : Int) -
        (get_cardinality_strength c : Int) = 0
    · rw [if_pos h0] at hx
      rcases ih c made x hx with h | h
      · exact Or.inl h
      · exact Or.inr (List.mem_cons_of_mem _ h)
    · rw [if_neg h0] at hx
      by_cases h1 : (get_cardinality_strength p : Int) -
          (get_cardinality_strength c : Int) = 1
      · rw [if_pos h1] at hx
        rcases ih c (made ++ [c]) x hx with h | h
        · rcases List.mem_append.mp h with h2 | h2
          · exact Or.inl h2
          · simp only [List.mem_singleton] at h2
            exact Or.inr (by rw [h2]; exact List.mem_cons_self _ _)
        · exact Or.inr (List.mem_cons_of_mem _ h)
      · rw [if_neg h1] at hx
        by_cases h2 : made.length < 5
        · rw [if_pos h2] at hx
          rcases ih c [c] x hx with h | h
          · simp only [List.mem_singleton] at h
            exact Or.inr (by rw [h]; exact List.mem_cons_self _ _)
          · exact Or.inr (List.mem_cons_of_mem _ h)
        · rw [if_neg h2] at hx
          rcases ih c made x hx with h | h
          · exact Or.inl h
          · exact Or.inr (List.mem_cons_of_mem _ h)

theorem get_straight_subset (cards res : List Card)
    (hres : get_straight cards = some res) : ∀ x ∈ res, x ∈ cards := by
  intro x hx
  unfold get_straight at hres
  cases hs : sortDesc cards with
  | nil => rw [hs] at hres; cases hres
  | cons c0 rest =>
    rw [hs] at hres
    have hsub : ∀ y, y ∈ c0 :: rest → y ∈ cards := by
      intro y hy
      exact (sortDesc_perm cards).mem_iff.mp (hs ▸ hy)
    by_cases hw : get_cardinality_strength ((c0 :: rest).getLastD c0) = 0 ∧
        get_cardinality_strength c0 = 12
    · simp only [if_pos hw] at hres
      by_cases h5 : 5 ≤ (scanLoop c0 [c0] rest ++ [c0]).length
      · rw [if_pos h5] at hres
        have hres2 := Option.some_inj.mp hres
        have hx2 : x ∈ scanLoop c0 [c0] rest ++ [c0] := by
          rw [← hres2] at hx
          exact List.mem_of_mem_take hx
        rcases List.mem_append.mp hx2 with h | h
        · rcases scanLoop_subset rest c0 [c0] x h with h2 | h2
          · simp only [List.mem_singleton] at h2
            exact hsub x (by rw [h2]; exact List.mem_cons_self _ _)
          · exact hsub x (List.mem_cons_of_mem _ h2)
        · simp only [List.mem_singleton] at h
          exact hsub x (by rw [h]; exact List.mem_cons_self _ _)
      · rw [if_neg h5] at hres; cases hres
    · simp only [if_neg hw] at hres
      by_cases h5 : 5 ≤ (scanLoop c0 [c0] rest).length
      · rw [if_pos h5] at hres
        have hres2 := Option.some_inj.mp hres
        have hx2 : x ∈ scanLoop c0 [c0] rest := by
          rw [← hres2] at hx
          exact List.mem_of_mem_take hx
        rcases scanLoop_subset rest c0 [c0] x hx2 with h2 | h2
        · simp only [List.mem_singleton] at h2
          exact hsub x (by rw [h2]; exact List.mem_cons_self _ _)
        · exact hsub x (List.mem_cons_of_mem _ h2)
      · rw [if_neg h5] at hres; cases hres

theorem get_straight_length (cards res : List Card)
    (hres : get_straight cards = some res) : res.length = 5 := by
  unfold get_straight at hres
  cases hs : sortDesc cards with
  | nil => rw [hs] at hres; cases hres
  | cons c0 rest =>
    rw [hs] at hres
    by_cases hw : get_cardinality_strength ((c0 :: rest).getLastD c0) = 0 ∧
        get_cardinality_strength c0 = 12
    · simp only [if_pos hw] at hres
      by_cases h5 : 5 ≤ (scanLoop c0 [c0] rest ++ [c0]).length
      · rw [if_pos h5] at hres
        rw [← Option.some_inj.mp hres, List.length_take]
        omega
      · rw [if_neg h5] at hres; cases hres
    · simp only [if_neg hw] at hres
      by_cases h5 : 5 ≤ (scanLoop c0 [c0] rest).length
      · rw [if_pos h5] at hres
        rw [← Option.some_inj.mp hres, List.length_take]
        omega
      · rw [if_neg h5] at hres; cases hres

/-- C5: For every duplicate-free 5-7 card set, the straight detector
`get_straight` returns the run of 5 consecutive distinct ranks with the
highest top rank (`topRun`) when one exists — a run of length 5 already
found is never discarded by a later gap — returns no result when neither a
run nor the wheel exists, and on a set whose only straight is the wheel
(`wheelM` holds, no 5-consecutive run) it succeeds with the 5 (strength 3)
as the first, primary tie-break card rather than the Ace. -/
theorem c5_straight_detector (cards : List Card) (hnd : cards.Nodup)
    (h5 : 5 ≤ cards.length) (h7 : cards.length ≤ 7) :
    (∀ t, topRun (maskOf cards) = some t →
      (get_straight cards).map (fun l => l.map get_cardinality_strength) =
        some [t, t-1, t-2, t-3, t-4]) ∧
    (topRun (maskOf cards) = none → wheelM (maskOf cards) = true →
      ∃ cfive rest, get_straight cards = some (cfive :: rest) ∧
        get_cardinality_strength cfive = 3 ∧
        (cfive :: rest).map get_cardinality_strength = [3, 2, 1, 0, 12]) ∧
    (topRun (maskOf cards) = none → wheelM (maskOf cards) = false →
      get_straight cards = none) := by
  have hne : cards ≠ [] := by
    intro h
    rw [h] at h5
    exact absurd h5 (by decide)
  rcases straight_spec_cards cards hne h7 with ⟨h1, h2, h3⟩
  refine ⟨h1, ?_, h3⟩
  intro ht hw
  have h := h2 ht hw
  cases hgs : get_straight cards with
  | none => rw [hgs] at h; cases h
  | some res =>
    rw [hgs] at h
    simp only [Option.map_some'] at h
    have hmap := Option.some_inj.mp h
    cases res with
    | nil => cases hmap
    | cons a as =>
      refine ⟨a, as, rfl, ?_, hmap⟩
      have hinj : get_cardinality_strength a ::
          as.map get_cardinality_strength = [3, 2, 1, 0, 12] := hmap
      exact (List.cons.inj hinj).1

/-- Witness for C5 at the wheel set `Ah 2c 3d 4s 5h`: the detector succeeds
with the 5 of hearts first. -/
theorem c5_straight_detector_witness :
    ∃ cfive rest,
      get_straight [⟨12,0⟩, ⟨0,3⟩, ⟨1,1⟩, ⟨2,2⟩, ⟨3,0⟩] = some (cfive :: rest) ∧
      get_cardinality_strength cfive = 3 ∧
      (cfive :: rest).map get_cardinality_strength = [3, 2, 1, 0, 12] :=
  (c5_straight_detector [⟨12,0⟩, ⟨0,3⟩, ⟨1,1⟩, ⟨2,2⟩, ⟨3,0⟩]
    (by decide) (by decide) (by decide)).2.1 (by decide) (by decide)

/-- C1: on every run whose configuration passes validation, `main` executes
`read_config`, `load_spots` and `hash_config` (which returns 0 for every
config) and then the unconditional `exit(1)`; the alive-pool computation,
cache load, board enumeration with equity aggregation, result printing and
the cache write-back are not among the executed steps.  Moreover the final
step calls the name `store_table`, which the module never defines (the
defined function is `store_tables`), so even without the early exit that
final call would fail. -/
theorem c1_main_exits_before_enumeration :
    executedSteps mainBody =
      [MainStep.readConfigStep, MainStep.loadSpotsStep,
       MainStep.hashConfigStep, MainStep.exitStep 1] ∧
    MainStep.aliveCardsStep ∉ executedSteps mainBody ∧
    MainStep.loadTableStep ∉ executedSteps mainBody ∧
    MainStep.enumerateStep ∉ executedSteps mainBody ∧
    MainStep.printEquitiesStep ∉ executedSteps mainBody ∧
    MainStep.storeTableCallStep ∉ executedSteps mainBody ∧
    (∀ c : Config, hash_config c = 0) ∧
    mainFinalCallName = "store_table" ∧
    mainFinalCallName ∉ definedNames ∧
    "store_tables" ∈ definedNames := by
  refine ⟨by decide, by decide, by decide, by decide, by decide, by decide,
    ?_, rfl, by decide, by decide⟩
  intro c
  rfl

/-- C2 (code bug): the duplicate-free seven-card set `Ah Ad As Kh Kd Ks Qh`
contains a three-of-a-kind (the aces) and, after removing it, a further
pair (two kings inside the KKK triple), yet `get_full_house` fails —
`get_n_of_kind(..., 2)` demands a rank with exactly two occurrences and K
occurs three times — and the classifier instead settles on three of a
kind. -/
theorem c2_full_house_two_triples_bug :
    ([⟨12,0⟩, ⟨12,1⟩, ⟨12,2⟩, ⟨11,0⟩, ⟨11,1⟩, ⟨11,2⟩, ⟨10,0⟩] :
        List Card).Nodup ∧
    get_full_house
      [⟨12,0⟩, ⟨12,1⟩, ⟨12,2⟩, ⟨11,0⟩, ⟨11,1⟩, ⟨11,2⟩, ⟨10,0⟩] = none ∧
    (firstSuccess
      [⟨12,0⟩, ⟨12,1⟩, ⟨12,2⟩, ⟨11,0⟩, ⟨11,1⟩, ⟨11,2⟩, ⟨10,0⟩]).map
        (fun r => r.1) = some Hand.THREE_OF_KIND := by decide

/-- C3 (code bug): the duplicate-free six-card set `2h 4h 6h 8h Th Qh` has
a suit-group of six hearts, yet `get_flush` fails because the source tests
`record['count'] == 5` instead of `>= 5`; the set falls through every
detector down to high card. -/
theorem c3_flush_six_suited_bug :
    ([⟨0,0⟩, ⟨2,0⟩, ⟨4,0⟩, ⟨6,0⟩, ⟨8,0⟩, ⟨10,0⟩] : List Card).Nodup ∧
    get_flush [⟨0,0⟩, ⟨2,0⟩, ⟨4,0⟩, ⟨6,0⟩, ⟨8,0⟩, ⟨10,0⟩] = none ∧
    (firstSuccess [⟨0,0⟩, ⟨2,0⟩, ⟨4,0⟩, ⟨6,0⟩, ⟨8,0⟩, ⟨10,0⟩]).map
      (fun r => r.1) = some Hand.HIGH_CARD := by decide

/-- Counterexample to C4 as stated: on a duplicate-free 7-card input with a
pair, `get_pair` succeeds with all 7 cards (the pair plus five kickers),
not with exactly 5. -/
theorem c4_pair_seven_cards_counterexample :
    ([⟨12,0⟩, ⟨12,1⟩, ⟨11,0⟩, ⟨10,0⟩, ⟨9,0⟩, ⟨7,3⟩, ⟨6,3⟩] :
        List Card).Nodup ∧
    (get_pair [⟨12,0⟩, ⟨12,1⟩, ⟨11,0⟩, ⟨10,0⟩, ⟨9,0⟩, ⟨7,3⟩, ⟨6,3⟩]).map
      List.length = some 7 ∧ (7 : Nat) ≠ 5 := by decide

/-- Counterexample to C10 as stated: on the duplicate-free 5-card royal
flush `Ah Kh Qh Jh Th`, five of the ten detectors succeed (royal flush,
straight flush, flush, straight, high card), not exactly one. -/
theorem c10_exactly_one_counterexample :
    ([⟨12,0⟩, ⟨11,0⟩, ⟨10,0⟩, ⟨9,0⟩, ⟨8,0⟩] : List Card).Nodup ∧
    (HANDS.filter (fun h =>
      (handCalc h [⟨12,0⟩, ⟨11,0⟩, ⟨10,0⟩, ⟨9,0⟩, ⟨8,0⟩]).isSome)).length = 5 ∧
    (5 : Nat) ≠ 1 := by decide

/-- The complete-board configuration used to exhibit the C6 conservation
failure: board `Ah Kh Qh Jh Th`, btn `2c 3c`, sb `4d 5d`. -/
def cfg6 : Config :=
  ⟨[⟨0,3⟩, ⟨1,3⟩], [⟨2,1⟩, ⟨3,1⟩], [], [], [], [],
   [⟨12,0⟩, ⟨11,0⟩, ⟨10,0⟩, ⟨9,0⟩, ⟨8,0⟩], []⟩

/-- C6 (code bug): on the validated complete-5-card-board configuration
`cfg6`, the equity computation performs its single outcome but the
complete-board branch never increments any win or tie counter, so the sum
of wins plus tied outcomes is 0 while the total outcome count is 1 — the
conservation equation fails. -/
theorem c6_complete_board_conservation_bug :
    validate_config cfg6 = true ∧
    (run_equity [] cfg6).map (fun st =>
      (sumWins st.players + st.tieOutcomes, sumTies st.players,
        st.outcomes)) = some (0, 0, 1) ∧
    (0 : Nat) ≠ 1 := by decide

theorem get_n_of_kind_eq (cards : List Card) (n : Nat) (p : List Card)
    (h : get_n_of_kind cards n = some p) :
    ∃ r, p = cards.filter (fun c => get_cardinality_strength c == r) ∧
      countRank cards r = n ∧ 0 < countRank cards r := by
  unfold get_n_of_kind at h
  cases hf : (List.range 13).reverse.find?
      (fun r => (countRank cards r == n) && decide (0 < countRank cards r)) with
  | none => rw [hf] at h; cases h
  | some r =>
    rw [hf] at h
    have hp := List.find?_some hf
    rcases (Bool.and_eq_true _ _).mp hp with ⟨h1, h2⟩
    exact ⟨r, (Option.some_inj.mp h).symm, eq_of_beq h1,
      of_decide_eq_true h2⟩

theorem countRank_filter_length (cards : List Card) (r : Nat) :
    (cards.filter (fun c => get_cardinality_strength c == r)).length =
      countRank cards r := rfl

theorem length_filter_split (cards : List Card) (p : Card → Bool) :
    (cards.filter p).length + (cards.filter (fun c => !(p c))).length =
      cards.length := by
  induction cards with
  | nil => rfl
  | cons c rest ih =>
    cases hc : p c
    · rw [List.filter_cons_of_neg (by simp [hc]),
        List.filter_cons_of_pos (by simp [hc])]
      simp only [List.length_cons]
      omega
    · rw [List.filter_cons_of_pos (by simp [hc]),
        List.filter_cons_of_neg (by simp [hc])]
      simp only [List.length_cons]
      omega

theorem setMinus_filter_rank (cards : List Card) (r : Nat) :
    setMinus cards (cards.filter (fun c => get_cardinality_strength c == r)) =
      cards.filter (fun c => !(get_cardinality_strength c == r)) := by
  unfold setMinus
  apply List.filter_congr
  intro c hc
  cases hr : (get_cardinality_strength c == r) with
  | false =>
    simp only [Bool.not_false, decide_eq_true_eq]
    intro hmem
    rw [List.mem_filter] at hmem
    rw [hmem.2] at hr
    cases hr
  | true =>
    simp only [Bool.not_true, decide_eq_false_iff_not, Classical.not_not]
    exact List.mem_filter.mpr ⟨hc, hr⟩

theorem setMinus_subset (a b : List Card) : ∀ x ∈ setMinus a b, x ∈ a := by
  intro x hx
  exact (List.mem_filter.mp hx).1

theorem setMinus_not_mem (a b : List Card) : ∀ x ∈ setMinus a b, x ∉ b := by
  intro x hx
  exact of_decide_eq_true (List.mem_filter.mp hx).2

theorem setMinus_nodup (a b : List Card) (h : a.Nodup) : (setMinus a b).Nodup :=
  h.filter _

theorem setMinus_rank_length (cards : List Card) (r : Nat) :
    (setMinus cards
        (cards.filter (fun c => get_cardinality_strength c == r))).length =
      cards.length - countRank cards r := by
  rw [setMinus_filter_rank]
  have h := length_filter_split cards (fun c => get_cardinality_strength c == r)
  rw [countRank_filter_length] at h
  omega

theorem get_high_card_length (cards : List Card) :
    (get_high_card cards).length = min 5 cards.length := by
  unfold get_high_card
  rw [List.length_take, (sortDesc_perm cards).length_eq]
  omega

theorem get_high_card_subset (cards : List Card) :
    ∀ x ∈ get_high_card cards, x ∈ cards := by
  intro x hx
  exact (sortDesc_perm cards).mem_iff.mp (List.mem_of_mem_take hx)

theorem get_high_card_nodup (cards : List Card) (h : cards.Nodup) :
    (get_high_card cards).Nodup :=
  ((sortDesc_perm cards).nodup_iff.mpr h).sublist (List.take_sublist _ _)

theorem get_pair_spec (cards res : List Card)
    (h : get_pair cards = some res) :
    res.length = 2 + min 5 (cards.length - 2) ∧
    (cards.Nodup → res.Nodup) ∧ (∀ x ∈ res, x ∈ cards) := by
  unfold get_pair at h
  cases hk : get_n_of_kind cards 2 with
  | none => rw [hk] at h; cases h
  | some p =>
    rw [hk] at h
    obtain ⟨r, hpf, hcnt, _⟩ := get_n_of_kind_eq cards 2 p hk
    have hres : res = p ++ get_high_card (setMinus cards p) :=
      (Option.some_inj.mp h).symm
    have hplen : p.length = 2 := by
      rw [hpf, countRank_filter_length, hcnt]
    have hmlen : (setMinus cards p).length = cards.length - 2 := by
      rw [hpf, setMinus_rank_length, hcnt]
    refine ⟨?_, ?_, ?_⟩
    · rw [hres, List.length_append, hplen, get_high_card_length, hmlen]
    · intro hnd
      rw [hres]
      refine List.Nodup.append ?_ ?_ ?_
      · rw [hpf]; exact hnd.filter _
      · exact get_high_card_nodup _ (setMinus_nodup _ _ hnd)
      · intro a hap hak
        exact setMinus_not_mem cards p a (get_high_card_subset _ a hak) hap
    · intro x hx
      rw [hres] at hx
      rcases List.mem_append.mp hx with hxp | hxk
      · exact List.mem_of_mem_filter (hpf ▸ hxp)
      · exact setMinus_subset _ _ x (get_high_card_subset _ x hxk)

theorem get_two_pair_spec (cards res : List Card)
    (h : get_two_pair cards = some res) :
    res.length = 5 ∧ (cards.Nodup → res.Nodup) ∧ (∀ x ∈ res, x ∈ cards) := by
  unfold get_two_pair at h
  cases hk1 : get_n_of_kind cards 2 with
  | none => rw [hk1] at h; cases h
  | some p1 =>
    rw [hk1] at h
    replace h : (match get_n_of_kind (setMinus cards p1) 2 with
      | none => none
      | some p2 =>
        match get_high_card (setMinus (setMinus cards p1) p2) with
        | [] => none
        | k :: _ => some (p1 ++ p2 ++ [k])) = some res := h
    cases hk2 : get_n_of_kind (setMinus cards p1) 2 with
    | none => rw [hk2] at h; cases h
    | some p2 =>
      rw [hk2] at h
      replace h : (match get_high_card (setMinus (setMinus cards p1) p2) with
        | [] => none
        | k :: _ => some (p1 ++ p2 ++ [k])) = some res := h
      cases hkck : get_high_card (setMinus (setMinus cards p1) p2) with
      | nil => rw [hkck] at h; cases h
      | cons k ks =>
        rw [hkck] at h
        have hres : res = p1 ++ p2 ++ [k] := (Option.some_inj.mp h).symm
        obtain ⟨r1, hp1f, hc1, _⟩ := get_n_of_kind_eq cards 2 p1 hk1
        obtain ⟨r2, hp2f, hc2, _⟩ :=
          get_n_of_kind_eq (setMinus cards p1) 2 p2 hk2
        have hp1len : p1.length = 2 := by
          rw [hp1f, countRank_filter_length, hc1]
        have hp2len : p2.length = 2 := by
          rw [hp2f, countRank_filter_length, hc2]
        have hkmem : k ∈ setMinus (setMinus cards p1) p2 := by
          apply get_high_card_subset
          rw [hkck]; exact List.mem_cons_self _ _
        have hp2sub : ∀ x ∈ p2, x ∈ setMinus cards p1 := by
          intro x hx
          exact List.mem_of_mem_filter (hp2f ▸ hx)
        refine ⟨?_, ?_, ?_⟩
        · rw [hres]
          simp only [List.length_append, List.length_singleton, hp1len, hp2len]
        · intro hnd
          rw [hres]
          refine List.Nodup.append (List.Nodup.append ?_ ?_ ?_)
            (List.nodup_singleton _) ?_
          · rw [hp1f]; exact hnd.filter _
          · rw [hp2f]; exact (setMinus_nodup _ _ hnd).filter _
          · intro a hap hap2
            exact setMinus_not_mem cards p1 a (hp2sub a hap2) hap
          · intro a ha hak
            simp only [List.mem_singleton] at hak
            subst hak
            rcases List.mem_append.mp ha with h1 | h2
            · exact setMinus_not_mem cards p1 a
                (setMinus_subset _ _ a hkmem) h1
            · exact setMinus_not_mem (setMinus cards p1) p2 a hkmem h2
        · intro x hx
          rw [hres] at hx
          rcases List.mem_append.mp hx with hx1 | hx2
          · rcases List.mem_append.mp hx1 with hxa | hxb
            · exact List.mem_of_mem_filter (hp1f ▸ hxa)
            · exact setMinus_subset _ _ x (hp2sub x hxb)
          · simp only [List.mem_singleton] at hx2
            subst hx2
            exact setMinus_subset _ _ x (setMinus_subset _ _ x hkmem)

theorem get_three_of_kind_spec (cards res : List Card)
    (h : get_three_of_kind cards = some res) (h5 : 5 ≤ cards.length) :
    res.length = 5 ∧ (cards.Nodup → res.Nodup) ∧ (∀ x ∈ res, x ∈ cards) := by
  unfold get_three_of_kind at h
  cases hk : get_n_of_kind cards 3 with
  | none => rw [hk] at h; cases h
  | some t =>
    rw [hk] at h
    have hres : res = t ++ (get_high_card (setMinus cards t)).take 2 :=
      (Option.some_inj.mp h).symm
    obtain ⟨r, htf, hcnt, _⟩ := get_n_of_kind_eq cards 3 t hk
    have htlen : t.length = 3 := by
      rw [htf, countRank_filter_length, hcnt]
    have hmlen : (setMinus cards t).length = cards.length - 3 := by
      rw [htf, setMinus_rank_length, hcnt]
    refine ⟨?_, ?_, ?_⟩
    · rw [hres, List.length_append, htlen, List.length_take,
        get_high_card_length, hmlen]
      omega
    · intro hnd
      rw [hres]
      refine List.Nodup.append ?_ ?_ ?_
      · rw [htf]; exact hnd.filter _
      · exact (get_high_card_nodup _ (setMinus_nodup _ _ hnd)).sublist
          (List.take_sublist _ _)
      · intro a hat hak
        exact setMinus_not_mem cards t a
          (get_high_card_subset _ a (List.mem_of_mem_take hak)) hat
    · intro x hx
      rw [hres] at hx
      rcases List.mem_append.mp hx with hxt | hxk
      · exact List.mem_of_mem_filter (htf ▸ hxt)
      · exact setMinus_subset _ _ x
          (get_high_card_subset _ x (List.mem_of_mem_take hxk))

theorem get_full_house_spec (cards res : List Card)
    (h : get_full_house cards = some res) :
    res.length = 5 ∧ (cards.Nodup → res.Nodup) ∧ (∀ x ∈ res, x ∈ cards) := by
  unfold get_full_house at h
  cases hk1 : get_n_of_kind cards 3 with
  | none => rw [hk1] at h; cases h
  | some t =>
    rw [hk1] at h
    replace h : (match get_n_of_kind (setMinus cards t) 2 with
      | none => none
      | some p => some (t ++ p)) = some res := h
    cases hk2 : get_n_of_kind (setMinus cards t) 2 with
    | none => rw [hk2] at h; cases h
    | some p =>
      rw [hk2] at h
      have hres : res = t ++ p := (Option.some_inj.mp h).symm
      obtain ⟨r1, htf, hc1, _⟩ := get_n_of_kind_eq cards 3 t hk1
      obtain ⟨r2, hpf, hc2, _⟩ := get_n_of_kind_eq (setMinus cards t) 2 p hk2
      have htlen : t.length = 3 := by
        rw [htf, countRank_filter_length, hc1]
      have hplen : p.length = 2 := by
        rw [hpf, countRank_filter_length, hc2]
      have hpsub : ∀ x ∈ p, x ∈ setMinus cards t := by
        intro x hx
        exact List.mem_of_mem_filter (hpf ▸ hx)
      refine ⟨?_, ?_, ?_⟩
      · rw [hres, List.length_append, htlen, hplen]
      · intro hnd
        rw [hres]
        refine List.Nodup.append ?_ ?_ ?_
        · rw [htf]; exact hnd.filter _
        · rw [hpf]; exact (setMinus_nodup _ _ hnd).filter _
        · intro a hat hap
          exact setMinus_not_mem cards t a (hpsub a hap) hat
      · intro x hx
        rw [hres] at hx
        rcases List.mem_append.mp hx with hxt | hxp
        · exact List.mem_of_mem_filter (htf ▸ hxt)
        · exact setMinus_subset _ _ x (hpsub x hxp)

theorem get_quads_spec (cards res : List Card)
    (h : get_quads cards = some res) :
    res.length = 5 ∧ (cards.Nodup → res.Nodup) ∧ (∀ x ∈ res, x ∈ cards) := by
  unfold get_quads at h
  cases hk : get_n_of_kind cards 4 with
  | none => rw [hk] at h; cases h
  | some q =>
    rw [hk] at h
    replace h : (match get_high_card (setMinus cards q) with
      | [] => none
      | k :: _ => some (q ++ [k])) = some res := h
    cases hkck : get_high_card (setMinus cards q) with
    | nil => rw [hkck] at h; cases h
    | cons k ks =>
      rw [hkck] at h
      have hres : res = q ++ [k] := (Option.some_inj.mp h).symm
      obtain ⟨r, hqf, hcnt, _⟩ := get_n_of_kind_eq cards 4 q hk
      have hqlen : q.length = 4 := by
        rw [hqf, countRank_filter_length, hcnt]
      have hkmem : k ∈ setMinus cards q := by
        apply get_high_card_subset
        rw [hkck]; exact List.mem_cons_self _ _
      refine ⟨?_, ?_, ?_⟩
      · rw [hres, List.length_append, hqlen, List.length_singleton]
      · intro hnd
        rw [hres]
        refine List.Nodup.append ?_ (List.nodup_singleton _) ?_
        · rw [hqf]; exact hnd.filter _
        · intro a ha hak
          simp only [List.mem_singleton] at hak
          subst hak
          exact setMinus_not_mem cards q a hkmem ha
      · intro x hx
        rw [hres] at hx
        rcases List.mem_append.mp hx with hxq | hxk
        · exact List.mem_of_mem_filter (hqf ▸ hxq)
        · simp only [List.mem_singleton] at hxk
          subst hxk
          exact setMinus_subset _ _ x hkmem

theorem get_flush_spec (cards res : List Card)
    (h : get_flush cards = some res) :
    res.length = 5 ∧ (cards.Nodup → res.Nodup) ∧ (∀ x ∈ res, x ∈ cards) := by
  unfold get_flush at h
  replace h : (match (occOrder ((sortDesc cards).map Card.suit)).find?
      (fun s => ((sortDesc cards).filter (fun c => c.suit == s)).length == 5) with
    | some s => some ((sortDesc cards).filter (fun c => c.suit == s))
    | none => none) = some res := h
  cases hf : (occOrder ((sortDesc cards).map Card.suit)).find?
      (fun s => ((sortDesc cards).filter (fun c => c.suit == s)).length == 5) with
  | none => rw [hf] at h; cases h
  | some s =>
    rw [hf] at h
    have hres : res = (sortDesc cards).filter (fun c => c.suit == s) :=
      (Option.some_inj.mp h).symm
    have hlen : ((sortDesc cards).filter (fun c => c.suit == s)).length = 5 := by
      simpa using List.find?_some hf
    refine ⟨?_, ?_, ?_⟩
    · rw [hres]; exact hlen
    · intro hnd
      rw [hres]
      exact ((sortDesc_perm cards).nodup_iff.mpr hnd).filter _
    · intro x hx
      rw [hres] at hx
      exact (sortDesc_perm cards).mem_iff.mp (List.mem_of_mem_filter hx)

theorem get_straight_nil : get_straight [] = none := rfl

theorem get_straight_flush_spec (cards res : List Card)
    (h : get_straight_flush cards = some res) (hnd : cards.Nodup)
    (h7 : cards.length ≤ 7) :
    res.length = 5 ∧ res.Nodup ∧ (∀ x ∈ res, x ∈ cards) := by
  unfold get_straight_flush at h
  obtain ⟨s, _, hgs⟩ := List.exists_of_findSome?_eq_some h
  have hgrsub : ∀ x ∈ cards.filter (fun c => c.suit == s), x ∈ cards := by
    intro x hx
    exact List.mem_of_mem_filter hx
  have hgrne : cards.filter (fun c => c.suit == s) ≠ [] := by
    intro hnil
    rw [hnil, get_straight_nil] at hgs
    cases hgs
  have hgrlen : (cards.filter (fun c => c.suit == s)).length ≤ 7 :=
    le_trans (List.length_filter_le _ _) h7
  refine ⟨get_straight_length _ _ hgs,
    get_straight_nodup _ hgrne hgrlen _ hgs, ?_⟩
  intro x hx
  exact hgrsub x (get_straight_subset _ _ hgs x hx)

theorem get_royal_flush_spec (cards res : List Card)
    (h : get_royal_flush cards = some res) (hnd : cards.Nodup)
    (h7 : cards.length ≤ 7) :
    res.length = 5 ∧ res.Nodup ∧ (∀ x ∈ res, x ∈ cards) := by
  unfold get_royal_flush at h
  cases hsf : get_straight_flush cards with
  | none => rw [hsf] at h; cases h
  | some sf =>
    rw [hsf] at h
    cases sf with
    | nil => cases h
    | cons c tl =>
      replace h : (if get_cardinality_strength c = 12
          then some (c :: tl) else none) = some res := h
      by_cases hA : get_cardinality_strength c = 12
      · rw [if_pos hA] at h
        rw [← Option.some_inj.mp h]
        exact get_straight_flush_spec cards (c :: tl) hsf hnd h7
      · rw [if_neg hA] at h
        cases h

theorem findSome?_isSome_of_mem (l : List α) (f : α → Option β)
    (a : α) (ha : a ∈ l) (b : β) (hf : f a = some b) :
    (l.findSome? f).isSome = true := by
  induction l with
  | nil => cases ha
  | cons x xs ih =>
    rw [List.findSome?_cons]
    cases hx : f x with
    | some v => rfl
    | none =>
      rcases List.mem_cons.mp ha with h | h
      · subst h; rw [hf] at hx; cases hx
      · exact ih h

theorem get_high_card_handCalc (cards : List Card) (h5 : 5 ≤ cards.length) :
    handCalc Hand.HIGH_CARD cards = some (get_high_card cards) := by
  have hlen : (get_high_card cards).length = 5 := by
    rw [get_high_card_length]; omega
  show (match get_high_card cards with
    | [] => none
    | c :: rest => some (c :: rest)) = some (get_high_card cards)
  cases hg : get_high_card cards with
  | nil => rw [hg] at hlen; cases hlen
  | cons c rest => rfl

theorem firstSuccess_isSome (cards : List Card) (h5 : 5 ≤ cards.length) :
    (firstSuccess cards).isSome = true := by
  unfold firstSuccess
  apply findSome?_isSome_of_mem HANDS _ Hand.HIGH_CARD (by decide)
    (Hand.HIGH_CARD, get_high_card cards)
  rw [get_high_card_handCalc cards h5]
  rfl

theorem firstSuccess_eq (cards : List Card) (h : Hand) (res : List Card)
    (hf : firstSuccess cards = some (h, res)) : handCalc h cards = some res := by
  unfold firstSuccess at hf
  obtain ⟨a, _, hfa⟩ := List.exists_of_findSome?_eq_some hf
  cases hca : handCalc a cards with
  | none => rw [hca] at hfa; cases hfa
  | some cs =>
    rw [hca] at hfa
    simp only [Option.map_some'] at hfa
    have hpair := Option.some_inj.mp hfa
    have h1 : a = h := congrArg Prod.fst hpair
    have h2 : cs = res := congrArg Prod.snd hpair
    rw [← h1, hca, h2]

theorem handCalc_high_card_eq (cards res : List Card)
    (hc : handCalc Hand.HIGH_CARD cards = some res) :
    res = get_high_card cards := by
  replace hc : (match get_high_card cards with
    | [] => none
    | c :: rest => some (c :: rest)) = some res := hc
  cases hg : get_high_card cards with
  | nil => rw [hg] at hc; cases hc
  | cons c rest =>
    rw [hg] at hc
    rw [← Option.some_inj.mp hc]

/-- C4 amended: on every duplicate-free 5-7 card set, each detector other
than the pair detector returns, on success, a sequence of exactly 5 cards;
the pair detector returns the pair plus `min 5 (n-2)` kickers, i.e. all
`n` input cards for `n ∈ {5,6,7}` — exactly 5 cards only for 5-card
inputs. -/
theorem c4_detector_result_sizes (cards : List Card) (hnd : cards.Nodup)
    (h5 : 5 ≤ cards.length) (h7 : cards.length ≤ 7) :
    (∀ res, get_royal_flush cards = some res → res.length = 5) ∧
    (∀ res, get_straight_flush cards = some res → res.length = 5) ∧
    (∀ res, get_quads cards = some res → res.length = 5) ∧
    (∀ res, get_full_house cards = some res → res.length = 5) ∧
    (∀ res, get_flush cards = some res → res.length = 5) ∧
    (∀ res, get_straight cards = some res → res.length = 5) ∧
    (∀ res, get_three_of_kind cards = some res → res.length = 5) ∧
    (∀ res, get_two_pair cards = some res → res.length = 5) ∧
    (get_high_card cards).length = 5 ∧
    (∀ res, get_pair cards = some res → res.length = cards.length) := by
  refine ⟨?_, ?_, ?_, ?_, ?_, ?_, ?_, ?_, ?_, ?_⟩
  · intro res h; exact (get_royal_flush_spec cards res h hnd h7).1
  · intro res h; exact (get_straight_flush_spec cards res h hnd h7).1
  · intro res h; exact (get_quads_spec cards res h).1
  · intro res h; exact (get_full_house_spec cards res h).1
  · intro res h; exact (get_flush_spec cards res h).1
  · intro res h; exact get_straight_length cards res h
  · intro res h; exact (get_three_of_kind_spec cards res h h5).1
  · intro res h; exact (get_two_pair_spec cards res h).1
  · rw [get_high_card_length]; omega
  · intro res h
    rw [(get_pair_spec cards res h).1]
    omega

/-- Witness for C4 (amended) at the 7-card set
`Ah Ad Kh Qh Jh 9c 8c`. -/
theorem c4_detector_result_sizes_witness :
    (get_high_card
      [⟨12,0⟩, ⟨12,1⟩, ⟨11,0⟩, ⟨10,0⟩, ⟨9,0⟩, ⟨7,3⟩, ⟨6,3⟩]).length = 5 :=
  (c4_detector_result_sizes
    [⟨12,0⟩, ⟨12,1⟩, ⟨11,0⟩, ⟨10,0⟩, ⟨9,0⟩, ⟨7,3⟩, ⟨6,3⟩]
    (by decide) (by decide) (by decide)).2.2.2.2.2.2.2.2.1

/-- C10 amended: on every duplicate-free 5-7 card set at least one of the
10 detectors succeeds (the high-card detector always does, and several may
succeed at once); the classifier's first success in descending priority
order is duplicate-free and a subset of the input; and `get_best_hand`
never reaches its no-category-matched fatal assertion, whatever the
cache. -/
theorem c10_classifier_safety (cards : List Card) (hnd : cards.Nodup)
    (h5 : 5 ≤ cards.length) (h7 : cards.length ≤ 7) :
    (firstSuccess cards).isSome = true ∧
    (∀ h res, firstSuccess cards = some (h, res) →
      res.Nodup ∧ ∀ x ∈ res, x ∈ cards) ∧
    (∀ cache, (get_best_hand cache cards).isSome = true) := by
  have hne : cards ≠ [] := by
    intro h
    rw [h] at h5
    exact absurd h5 (by decide)
  have hfs := firstSuccess_isSome cards h5
  refine ⟨hfs, ?_, ?_⟩
  · intro h res hf
    have hc := firstSuccess_eq cards h res hf
    cases h with
    | ROYAL_FLUSH =>
      obtain ⟨_, hn, hs⟩ := get_royal_flush_spec cards res hc hnd h7
      exact ⟨hn, hs⟩
    | STRAIGHT_FLUSH =>
      obtain ⟨_, hn, hs⟩ := get_straight_flush_spec cards res hc hnd h7
      exact ⟨hn, hs⟩
    | QUADS =>
      obtain ⟨_, hn, hs⟩ := get_quads_spec cards res hc
      exact ⟨hn hnd, hs⟩
    | FULL_HOUSE =>
      obtain ⟨_, hn, hs⟩ := get_full_house_spec cards res hc
      exact ⟨hn hnd, hs⟩
    | FLUSH =>
      obtain ⟨_, hn, hs⟩ := get_flush_spec cards res hc
      exact ⟨hn hnd, hs⟩
    | STRAIGHT =>
      exact ⟨get_straight_nodup cards hne h7 res hc,
        get_straight_subset cards res hc⟩
    | THREE_OF_KIND =>
      obtain ⟨_, hn, hs⟩ := get_three_of_kind_spec cards res hc h5
      exact ⟨hn hnd, hs⟩
    | TWO_PAIR =>
      obtain ⟨_, hn, hs⟩ := get_two_pair_spec cards res hc
      exact ⟨hn hnd, hs⟩
    | PAIR =>
      obtain ⟨_, hn, hs⟩ := get_pair_spec cards res hc
      exact ⟨hn hnd, hs⟩
    | HIGH_CARD =>
      rw [handCalc_high_card_eq cards res hc]
      exact ⟨get_high_card_nodup cards hnd, get_high_card_subset cards⟩
  · intro cache
    cases hl : cacheLookup cache (sortKey cards) with
    | some hh => simp only [get_best_hand, hl]; rfl
    | none =>
      simp only [get_best_hand, hl]
      cases hfs2 : firstSuccess cards with
      | none => rw [hfs2] at hfs; cases hfs
      | some hc => rfl

/-- Witness for C10 (amended) at the royal-flush set `Ah Kh Qh Jh Th` with
an empty cache. -/
theorem c10_classifier_safety_witness :
    (firstSuccess [⟨12,0⟩, ⟨11,0⟩, ⟨10,0⟩, ⟨9,0⟩, ⟨8,0⟩]).isSome = true ∧
    (get_best_hand [] [⟨12,0⟩, ⟨11,0⟩, ⟨10,0⟩, ⟨9,0⟩, ⟨8,0⟩]).isSome = true := by
  have h := c10_classifier_safety [⟨12,0⟩, ⟨11,0⟩, ⟨10,0⟩, ⟨9,0⟩, ⟨8,0⟩]
    (by decide) (by decide) (by decide)
  exact ⟨h.1, h.2.2 []⟩


theorem tiebreakers_lt5 (h : Hand) : ∀ i ∈ tiebreakers h, i < 5 := by
  cases h <;> decide

theorem handIntVal_inj : ∀ x y : Hand, handIntVal x = handIntVal y → x = y := by
  decide

theorem tiebreakCmp_total (idxs : List Nat) : ∀ (ls rs : List Card),
    (∀ i ∈ idxs, i < ls.length ∧ i < rs.length) →
    ∃ x, tiebreakCmp idxs ls rs = some x ∧ (x = -1 ∨ x = 0 ∨ x = 1) := by
  induction idxs with
  | nil =>
    intro ls rs _
    exact ⟨0, rfl, Or.inr (Or.inl rfl)⟩
  | cons i rest ih =>
    intro ls rs hb
    obtain ⟨hil, hir⟩ := hb i (List.mem_cons_self _ _)
    have hlc := List.get?_eq_get hil
    have hrc := List.get?_eq_get hir
    unfold tiebreakCmp
    rw [hlc, hrc]
    simp only [Option.some_bind]
    by_cases h0 : (get_cardinality_strength (ls.get ⟨i, hil⟩) : Int) -
        (get_cardinality_strength (rs.get ⟨i, hir⟩) : Int) = 0
    · rw [if_pos h0]
      exact ih ls rs (fun j hj => hb j (List.mem_cons_of_mem _ hj))
    · rw [if_neg h0]
      by_cases h1 : (0 : Int) < (get_cardinality_strength (ls.get ⟨i, hil⟩) : Int) -
          (get_cardinality_strength (rs.get ⟨i, hir⟩) : Int)
      · rw [if_pos h1]
        exact ⟨-1, rfl, Or.inl rfl⟩
      · rw [if_neg h1]
        exact ⟨1, rfl, Or.inr (Or.inr rfl)⟩


theorem tiebreakCmp_antisym (idxs : List Nat) : ∀ (ls rs : List Card) (x : Int),
    tiebreakCmp idxs ls rs = some x → tiebreakCmp idxs rs ls = some (-x) := by
  induction idxs with
  | nil =>
    intro ls rs x h
    have hx : (0 : Int) = x := Option.some_inj.mp h
    rw [← hx]
    rfl
  | cons i rest ih =>
    intro ls rs x h
    unfold tiebreakCmp at h ⊢
    cases hlc : ls.get? i with
    | none =>
      simp only [hlc, Option.none_bind] at h
      cases h
    | some lc =>
      cases hrc : rs.get? i with
      | none =>
        simp only [hlc, hrc, Option.some_bind, Option.none_bind] at h
        cases h
      | some rc =>
        simp only [hlc, hrc, Option.some_bind] at h ⊢
        by_cases h0 : (get_cardinality_strength lc : Int) -
            (get_cardinality_strength rc : Int) = 0
        · rw [if_pos h0] at h
          rw [if_pos (by omega :
            (get_cardinality_strength rc : Int) -
              (get_cardinality_strength lc : Int) = 0)]
          exact ih ls rs x h
        · rw [if_neg h0] at h
          rw [if_neg (by omega :
            ¬ ((get_cardinality_strength rc : Int) -
              (get_cardinality_strength lc : Int) = 0))]
          by_cases h1 : (0 : Int) < (get_cardinality_strength lc : Int) -
              (get_cardinality_strength rc : Int)
          · rw [if_pos h1] at h
            rw [if_neg (by omega :
              ¬ ((0 : Int) < (get_cardinality_strength rc : Int) -
                (get_cardinality_strength lc : Int)))]
            rw [← Option.some_inj.mp h]
            rfl
          · rw [if_neg h1] at h
            rw [if_pos (by omega :
              (0 : Int) < (get_cardinality_strength rc : Int) -
                (get_cardinality_strength lc : Int))]
            rw [← Option.some_inj.mp h]

theorem tiebreakCmp_trans (idxs : List Nat) : ∀ (la lb lc : List Card),
    tiebreakCmp idxs la lb = some (-1) → tiebreakCmp idxs lb lc = some (-1) →
    tiebreakCmp idxs la lc = some (-1) := by
  induction idxs with
  | nil =>
    intro la lb lc h1 _
    exact absurd (Option.some_inj.mp h1) (by decide)
  | cons i rest ih =>
    intro la lb lc h1 h2
    unfold tiebreakCmp at h1 h2 ⊢
    cases hga : la.get? i with
    | none =>
      simp only [hga, Option.none_bind] at h1
      cases h1
    | some ca =>
      cases hgb : lb.get? i with
      | none =>
        simp only [hga, hgb, Option.some_bind, Option.none_bind] at h1
        cases h1
      | some cb =>
        cases hgc : lc.get? i with
        | none =>
          simp only [hgb, hgc, Option.some_bind, Option.none_bind] at h2
          cases h2
        | some cc =>
          simp only [hga, hgb, hgc, Option.some_bind] at h1 h2 ⊢
          by_cases hab0 : (get_cardinality_strength ca : Int) -
              (get_cardinality_strength cb : Int) = 0
          · rw [if_pos hab0] at h1
            by_cases hbc0 : (get_cardinality_strength cb : Int) -
                (get_cardinality_strength cc : Int) = 0
            · rw [if_pos hbc0] at h2
              rw [if_pos (by omega : (get_cardinality_strength ca : Int) -
                (get_cardinality_strength cc : Int) = 0)]
              exact ih la lb lc h1 h2
            · rw [if_neg hbc0] at h2
              by_cases hbcp : (0 : Int) < (get_cardinality_strength cb : Int) -
                  (get_cardinality_strength cc : Int)
              · rw [if_neg (by omega : ¬ ((get_cardinality_strength ca : Int) -
                  (get_cardinality_strength cc : Int) = 0)),
                  if_pos (by omega : (0 : Int) <
                    (get_cardinality_strength ca : Int) -
                      (get_cardinality_strength cc : Int))]
              · rw [if_neg hbcp] at h2
                exact absurd (Option.some_inj.mp h2) (by decide)
          · rw [if_neg hab0] at h1
            by_cases habp : (0 : Int) < (get_cardinality_strength ca : Int) -
                (get_cardinality_strength cb : Int)
            · rw [if_pos habp] at h1
              by_cases hbc0 : (get_cardinality_strength cb : Int) -
                  (get_cardinality_strength cc : Int) = 0
              · rw [if_pos hbc0] at h2
                rw [if_neg (by omega : ¬ ((get_cardinality_strength ca : Int) -
                  (get_cardinality_strength cc : Int) = 0)),
                  if_pos (by omega : (0 : Int) <
                    (get_cardinality_strength ca : Int) -
                      (get_cardinality_strength cc : Int))]
              · rw [if_neg hbc0] at h2
                by_cases hbcp : (0 : Int) <
                    (get_cardinality_strength cb : Int) -
                      (get_cardinality_strength cc : Int)
                · rw [if_neg (by omega :
                    ¬ ((get_cardinality_strength ca : Int) -
                      (get_cardinality_strength cc : Int) = 0)),
                    if_pos (by omega : (0 : Int) <
                      (get_cardinality_strength ca : Int) -
                        (get_cardinality_strength cc : Int))]
                · rw [if_neg hbcp] at h2
                  exact absurd (Option.some_inj.mp h2) (by decide)
            · rw [if_neg habp] at h1
              exact absurd (Option.some_inj.mp h1) (by decide)

theorem tiebreakCmp_zero (idxs : List Nat) : ∀ (ls rs : List Card),
    (∀ i ∈ idxs, i < ls.length ∧ i < rs.length) →
    (tiebreakCmp idxs ls rs = some 0 ↔ ∀ i ∈ idxs,
      (ls.get? i).map get_cardinality_strength =
        (rs.get? i).map get_cardinality_strength) := by
  induction idxs with
  | nil =>
    intro ls rs _
    constructor
    · intro _ i hi
      cases hi
    · intro _
      rfl
  | cons i rest ih =>
    intro ls rs hb
    obtain ⟨hil, hir⟩ := hb i (List.mem_cons_self _ _)
    have hlc := List.get?_eq_get hil
    have hrc := List.get?_eq_get hir
    unfold tiebreakCmp
    rw [hlc, hrc]
    simp only [Option.some_bind]
    by_cases h0 : (get_cardinality_strength (ls.get ⟨i, hil⟩) : Int) -
        (get_cardinality_strength (rs.get ⟨i, hir⟩) : Int) = 0
    · rw [if_pos h0]
      rw [ih ls rs (fun j hj => hb j (List.mem_cons_of_mem _ hj))]
      constructor
      · intro hrest j hj
        rcases List.mem_cons.mp hj with hji | hjr
        · subst hji
          rw [hlc, hrc]
          simp only [Option.map_some', Option.some.injEq]
          omega
        · exact hrest j hjr
      · intro hall j hj
        exact hall j (List.mem_cons_of_mem _ hj)
    · rw [if_neg h0]
      constructor
      · intro hcmp
        exfalso
        by_cases h1 : (0 : Int) <
            (get_cardinality_strength (ls.get ⟨i, hil⟩) : Int) -
              (get_cardinality_strength (rs.get ⟨i, hir⟩) : Int)
        · rw [if_pos h1] at hcmp
          exact absurd (Option.some_inj.mp hcmp) (by decide)
        · rw [if_neg h1] at hcmp
          exact absurd (Option.some_inj.mp hcmp) (by decide)
      · intro hall
        exfalso
        have hi := hall i (List.mem_cons_self _ _)
        rw [hlc, hrc] at hi
        simp only [Option.map_some', Option.some.injEq] at hi
        omega

theorem compare_hands_total (a b : BHand) (ha : 5 ≤ a.cards.length)
    (hb : 5 ≤ b.cards.length) :
    ∃ x, compare_hands a b = some x ∧ (x = -1 ∨ x = 0 ∨ x = 1) := by
  have hbounds : ∀ i ∈ tiebreakers a.id, i < a.cards.length ∧
      i < b.cards.length := by
    intro i hi
    have := tiebreakers_lt5 a.id i hi
    omega
  by_cases hid : a.id = b.id
  · unfold compare_hands
    rw [if_neg (fun hne => hne hid)]
    exact tiebreakCmp_total _ _ _ hbounds
  · unfold compare_hands
    rw [if_pos hid]
    by_cases hv : handIntVal b.id < handIntVal a.id
    · rw [if_pos hv]; exact ⟨-1, rfl, Or.inl rfl⟩
    · rw [if_neg hv]; exact ⟨1, rfl, Or.inr (Or.inr rfl)⟩

/-- C8: `compare_hands` is a strict total order on well-formed classified
hands (hands whose card list has at least the 5 entries every detector
produces): it always returns one of -1 (Greater), 0 (Equal) or 1 (Less)
and never raises; a higher category wins outright; within a category it
walks exactly the category's designated tie-break indices (for Two Pair,
`[0, 2, 4]`); it is antisymmetric and transitive; and it returns 0 only
for hands of identical category with identical tie-break strengths at
every designated index. -/
theorem c8_compare_hands_total_order (a b c : BHand)
    (ha : 5 ≤ a.cards.length) (hb : 5 ≤ b.cards.length)
    (hc : 5 ≤ c.cards.length) :
    (∃ x, compare_hands a b = some x ∧ (x = -1 ∨ x = 0 ∨ x = 1)) ∧
    (a.id ≠ b.id → handIntVal b.id < handIntVal a.id →
      compare_hands a b = some (-1)) ∧
    (a.id ≠ b.id → handIntVal a.id < handIntVal b.id →
      compare_hands a b = some 1) ∧
    (a.id = b.id → compare_hands a b =
      tiebreakCmp (tiebreakers a.id) a.cards b.cards) ∧
    tiebreakers Hand.TWO_PAIR = [0, 2, 4] ∧
    (∀ x, compare_hands a b = some x → compare_hands b a = some (-x)) ∧
    (compare_hands a b = some (-1) → compare_hands b c = some (-1) →
      compare_hands a c = some (-1)) ∧
    (compare_hands a b = some 0 ↔ a.id = b.id ∧ ∀ i ∈ tiebreakers a.id,
      (a.cards.get? i).map get_cardinality_strength =
        (b.cards.get? i).map get_cardinality_strength) := by
  have hbounds : ∀ (u v : BHand), 5 ≤ u.cards.length → 5 ≤ v.cards.length →
      ∀ i ∈ tiebreakers u.id, i < u.cards.length ∧ i < v.cards.length := by
    intro u v hu hv i hi
    have := tiebreakers_lt5 u.id i hi
    omega
  refine ⟨compare_hands_total a b ha hb, ?_, ?_, ?_, rfl, ?_, ?_, ?_⟩
  · intro hne hv
    unfold compare_hands
    rw [if_pos hne, if_pos hv]
  · intro hne hv
    unfold compare_hands
    rw [if_pos hne, if_neg (by omega)]
  · intro hid
    unfold compare_hands
    rw [if_neg (fun hne => hne hid)]
  · intro x h
    unfold compare_hands at h ⊢
    by_cases hid : a.id = b.id
    · rw [if_neg (fun hne => hne hid)] at h
      rw [if_neg (fun hne => hne hid.symm)]
      have hres := tiebreakCmp_antisym (tiebreakers a.id) a.cards b.cards x h
      rw [show tiebreakers b.id = tiebreakers a.id from by rw [hid]]
      exact hres
    · rw [if_pos hid] at h
      rw [if_pos (fun heq => hid heq.symm)]
      by_cases hv : handIntVal b.id < handIntVal a.id
      · rw [if_pos hv] at h
        have hx : x = -1 := (Option.some_inj.mp h).symm
        subst hx
        rw [if_neg (by omega)]
        decide
      · rw [if_neg hv] at h
        have hx : x = 1 := (Option.some_inj.mp h).symm
        subst hx
        have hvne : handIntVal a.id ≠ handIntVal b.id :=
          fun hveq => hid (handIntVal_inj _ _ hveq)
        rw [if_pos (by omega)]
  · intro h1 h2
    unfold compare_hands at h1 h2 ⊢
    by_cases hab : a.id = b.id
    · by_cases hbc : b.id = c.id
      · have hac : a.id = c.id := hab.trans hbc
        rw [if_neg (fun hne => hne hab)] at h1
        rw [if_neg (fun hne => hne hbc)] at h2
        rw [if_neg (fun hne => hne hac)]
        rw [show tiebreakers b.id = tiebreakers a.id from by rw [hab]] at h2
        exact tiebreakCmp_trans _ _ _ _ h1 h2
      · rw [if_pos hbc] at h2
        have hvcb : handIntVal c.id < handIntVal b.id := by
          by_cases hv : handIntVal c.id < handIntVal b.id
          · exact hv
          · rw [if_neg hv] at h2
            exact absurd (Option.some_inj.mp h2) (by decide)
        have hvab : handIntVal a.id = handIntVal b.id := by rw [hab]
        have hac : a.id ≠ c.id := by rw [hab]; exact hbc
        rw [if_pos hac, if_pos (by omega)]
    · rw [if_pos hab] at h1
      have hvba : handIntVal b.id < handIntVal a.id := by
        by_cases hv : handIntVal b.id < handIntVal a.id
        · exact hv
        · rw [if_neg hv] at h1
          exact absurd (Option.some_inj.mp h1) (by decide)
      by_cases hbc : b.id = c.id
      · have hvbc : handIntVal b.id = handIntVal c.id := by rw [hbc]
        have hac : a.id ≠ c.id := by rw [← hbc]; exact hab
        rw [if_pos hac, if_pos (by omega)]
      · rw [if_pos hbc] at h2
        have hvcb : handIntVal c.id < handIntVal b.id := by
          by_cases hv : handIntVal c.id < handIntVal b.id
          · exact hv
          · rw [if_neg hv] at h2
            exact absurd (Option.some_inj.mp h2) (by decide)
        have hac : a.id ≠ c.id := by
          intro heq
          have := congrArg handIntVal heq
          omega
        rw [if_pos hac, if_pos (by omega)]
  · by_cases hid : a.id = b.id
    · unfold compare_hands
      rw [if_neg (fun hne => hne hid)]
      rw [tiebreakCmp_zero _ _ _ (hbounds a b ha hb)]
      constructor
      · intro hz
        exact ⟨hid, hz⟩
      · intro hz
        exact hz.2
    · unfold compare_hands
      rw [if_pos hid]
      constructor
      · intro h
        exfalso
        by_cases hv : handIntVal b.id < handIntVal a.id
        · rw [if_pos hv] at h
          exact absurd (Option.some_inj.mp h) (by decide)
        · rw [if_neg hv] at h
          exact absurd (Option.some_inj.mp h) (by decide)
      · intro hz
        exact absurd hz.1 hid

/-- Witness for C8 at three concrete two-pair hands. -/
theorem c8_compare_hands_total_order_witness :
    ∃ x, compare_hands
      ⟨Hand.TWO_PAIR, [⟨11,0⟩, ⟨11,1⟩, ⟨10,0⟩, ⟨10,1⟩, ⟨0,3⟩]⟩
      ⟨Hand.TWO_PAIR, [⟨11,2⟩, ⟨11,3⟩, ⟨9,0⟩, ⟨9,1⟩, ⟨0,2⟩]⟩ = some x ∧
      (x = -1 ∨ x = 0 ∨ x = 1) :=
  (c8_compare_hands_total_order
    ⟨Hand.TWO_PAIR, [⟨11,0⟩, ⟨11,1⟩, ⟨10,0⟩, ⟨10,1⟩, ⟨0,3⟩]⟩
    ⟨Hand.TWO_PAIR, [⟨11,2⟩, ⟨11,3⟩, ⟨9,0⟩, ⟨9,1⟩, ⟨0,2⟩]⟩
    ⟨Hand.HIGH_CARD, [⟨12,0⟩, ⟨10,1⟩, ⟨8,2⟩, ⟨6,3⟩, ⟨4,0⟩]⟩
    (by decide) (by decide) (by decide)).1

theorem codeOf_inj : ∀ a b : Card, codeOf a = codeOf b → a = b := by decide

theorem sortKey_pairwise (cards : List Card) :
    (sortKey cards).Pairwise (fun u v => codeOf u ≤ codeOf v) := by
  have h := insSort_pairwise (fun x a => decide (codeOf x < codeOf a))
    (by intro x y hxy
        simp only [decide_eq_true_eq] at hxy
        simp only [decide_eq_false_iff_not]
        omega)
    (by intro x y z hxy hyz
        simp only [decide_eq_false_iff_not] at hxy hyz
        simp only [decide_eq_false_iff_not]
        omega)
    cards
  refine h.imp ?_
  intro u v huv
  simp only [decide_eq_false_iff_not] at huv
  omega

theorem sortKey_perm (cards : List Card) : List.Perm (sortKey cards) cards :=
  insSort_perm _ _

theorem sortKey_perm_eq (l1 l2 : List Card) (hp : List.Perm l1 l2) :
    sortKey l1 = sortKey l2 := by
  haveI : IsAntisymm Card (fun u v => codeOf u ≤ codeOf v) :=
    ⟨fun a b h1 h2 => codeOf_inj a b (le_antisymm h1 h2)⟩
  exact List.eq_of_perm_of_sorted
    (((sortKey_perm l1).trans hp).trans (sortKey_perm l2).symm)
    (sortKey_pairwise l1) (sortKey_pairwise l2)

theorem cacheLookup_head (k : List Card) (v : BHand) (rest : Cache) :
    cacheLookup ((k, v) :: rest) k = some v := by
  unfold cacheLookup
  rw [if_pos rfl]

/-- C9: classification is memoized by the order-independent canonical key
`sortKey`: after classifying a duplicate-free 5-7 card set once, a second
call with the cards in any permuted order returns the identical classified
hand, runs no detector (the returned flag is `false`), and returns the
cache unchanged — in particular the number of cache entries is
unchanged. -/
theorem c9_cache_idempotent (cache : Cache) (cards cards2 : List Card)
    (hperm : List.Perm cards2 cards) (hnd : cards.Nodup)
    (h5 : 5 ≤ cards.length) (h7 : cards.length ≤ 7) :
    ∃ h c1 ran, get_best_hand cache cards = some (h, c1, ran) ∧
      get_best_hand c1 cards2 = some (h, c1, false) := by
  have hkey : sortKey cards2 = sortKey cards := sortKey_perm_eq _ _ hperm
  cases hl : cacheLookup cache (sortKey cards) with
  | some hh =>
    refine ⟨hh, cache, false, ?_, ?_⟩
    · simp only [get_best_hand, hl]
    · simp only [get_best_hand, hkey, hl]
  | none =>
    cases hfs : firstSuccess cards with
    | none =>
      have hsome := firstSuccess_isSome cards h5
      rw [hfs] at hsome
      cases hsome
    | some hc =>
      refine ⟨⟨hc.1, hc.2⟩, (sortKey cards, ⟨hc.1, hc.2⟩) :: cache, true,
        ?_, ?_⟩
      · simp only [get_best_hand, hl, hfs]
      · simp only [get_best_hand, hkey, cacheLookup_head]

/-- C9 witness: a wheel-straight card set and a permutation of it,
starting from the empty cache. -/
theorem c9_cache_idempotent_witness :
    ∃ h c1 ran,
      get_best_hand [] [⟨12,0⟩, ⟨0,3⟩, ⟨1,1⟩, ⟨2,2⟩, ⟨4,0⟩] =
        some (h, c1, ran) ∧
      get_best_hand c1 [⟨4,0⟩, ⟨2,2⟩, ⟨1,1⟩, ⟨0,3⟩, ⟨12,0⟩] =
        some (h, c1, false) :=
  c9_cache_idempotent [] [⟨12,0⟩, ⟨0,3⟩, ⟨1,1⟩, ⟨2,2⟩, ⟨4,0⟩]
    [⟨4,0⟩, ⟨2,2⟩, ⟨1,1⟩, ⟨0,3⟩, ⟨12,0⟩]
    (by decide) (by decide) (by decide) (by decide)

theorem get_royal_flush_as_sf (cards res : List Card)
    (h : get_royal_flush cards = some res) :
    get_straight_flush cards = some res := by
  unfold get_royal_flush at h
  cases hsf : get_straight_flush cards with
  | none => rw [hsf] at h; cases h
  | some sf =>
    rw [hsf] at h
    cases sf with
    | nil => cases h
    | cons c tl =>
      replace h : (if get_cardinality_strength c = 12
          then some (c :: tl) else none) = some res := h
      by_cases hA : get_cardinality_strength c = 12
      · rw [if_pos hA] at h
        exact h
      · rw [if_neg hA] at h
        cases h

theorem get_straight_flush_length (cards res : List Card)
    (h : get_straight_flush cards = some res) : res.length = 5 := by
  unfold get_straight_flush at h
  obtain ⟨s, _, hgs⟩ := List.exists_of_findSome?_eq_some h
  exact get_straight_length _ _ hgs

theorem firstSuccess_length_ge5 (cards : List Card) (h5 : 5 ≤ cards.length)
    (h : Hand) (res : List Card)
    (hf : firstSuccess cards = some (h, res)) : 5 ≤ res.length := by
  have hc := firstSuccess_eq cards h res hf
  cases h with
  | ROYAL_FLUSH =>
    rw [get_straight_flush_length cards res (get_royal_flush_as_sf cards res hc)]
  | STRAIGHT_FLUSH => rw [get_straight_flush_length cards res hc]
  | QUADS => rw [(get_quads_spec cards res hc).1]
  | FULL_HOUSE => rw [(get_full_house_spec cards res hc).1]
  | FLUSH => rw [(get_flush_spec cards res hc).1]
  | STRAIGHT => rw [get_straight_length cards res hc]
  | THREE_OF_KIND => rw [(get_three_of_kind_spec cards res hc h5).1]
  | TWO_PAIR => rw [(get_two_pair_spec cards res hc).1]
  | PAIR =>
    rw [(get_pair_spec cards res hc).1]
    omega
  | HIGH_CARD =>
    rw [handCalc_high_card_eq cards res hc, get_high_card_length]
    omega

/-- A well-formed cache: every stored classified hand has at least 5
cards, as every hand the classifier itself stores does. -/
def CacheWF (cache : Cache) : Prop := ∀ kv ∈ cache, 5 ≤ kv.2.cards.length

theorem cacheLookup_wf (cache : Cache) (key : List Card) (bh : BHand)
    (hwf : CacheWF cache) (h : cacheLookup cache key = some bh) :
    5 ≤ bh.cards.length := by
  induction cache with
  | nil => cases h
  | cons kv rest ih =>
    unfold cacheLookup at h
    by_cases hk : kv.1 = key
    · rw [if_pos hk] at h
      have := hwf kv (List.mem_cons_self _ _)
      rw [Option.some_inj.mp h] at this
      exact this
    · rw [if_neg hk] at h
      exact ih (fun q hq => hwf q (List.mem_cons_of_mem _ hq)) h

theorem get_best_hand_wf (cache : Cache) (cards : List Card)
    (hwf : CacheWF cache) (h5 : 5 ≤ cards.length) :
    ∃ bh c2 fl, get_best_hand cache cards = some (bh, c2, fl) ∧
      5 ≤ bh.cards.length ∧ CacheWF c2 := by
  cases hl : cacheLookup cache (sortKey cards) with
  | some hh =>
    refine ⟨hh, cache, false, ?_, cacheLookup_wf cache _ hh hwf hl, hwf⟩
    simp only [get_best_hand, hl]
  | none =>
    cases hfs : firstSuccess cards with
    | none =>
      have hsome := firstSuccess_isSome cards h5
      rw [hfs] at hsome
      cases hsome
    | some hc =>
      refine ⟨⟨hc.1, hc.2⟩, (sortKey cards, ⟨hc.1, hc.2⟩) :: cache, true,
        ?_, ?_, ?_⟩
      · simp only [get_best_hand, hl, hfs]
      · exact firstSuccess_length_ge5 cards h5 hc.1 hc.2 (by rw [hfs])
      · intro kv hkv
        rcases List.mem_cons.mp hkv with hh | hh
        · rw [hh]
          exact firstSuccess_length_ge5 cards h5 hc.1 hc.2 (by rw [hfs])
        · exact hwf kv hh

theorem classifyAll_some (board : List Card) (h5b : 5 ≤ board.length) :
    ∀ (players : List (String × List Card)) (cache : Cache), CacheWF cache →
    ∃ hs cache2, classifyAll cache board players = some (hs, cache2) ∧
      hs.length = players.length ∧ CacheWF cache2 ∧
      ∀ pb ∈ hs, 5 ≤ pb.2.cards.length := by
  intro players
  induction players with
  | nil =>
    intro cache hwf
    exact ⟨[], cache, rfl, rfl, hwf, by intro pb h; cases h⟩
  | cons p rest ih =>
    intro cache hwf
    obtain ⟨bh, c2, fl, hg, hbl, hwf2⟩ :=
      get_best_hand_wf cache (p.2 ++ board) hwf
        (by simp only [List.length_append]; omega)
    obtain ⟨hs, c3, hcl, hhl, hwf3, hall⟩ := ih c2 hwf2
    refine ⟨(p.1, bh) :: hs, c3, ?_, by simp [hhl], hwf3, ?_⟩
    · simp only [classifyAll, hg, hcl]
    · intro pb hpb
      rcases List.mem_cons.mp hpb with h | h
      · rw [h]; exact hbl
      · exact hall pb h

theorem assignRanks_some :
    ∀ (hs : List (String × BHand)) (rank : Nat) (prev : BHand),
    5 ≤ prev.cards.length → (∀ pb ∈ hs, 5 ≤ pb.2.cards.length) →
    ∃ tl, assignRanks rank prev hs = some tl := by
  intro hs
  induction hs with
  | nil => intro rank prev _ _; exact ⟨[], rfl⟩
  | cons p rest ih =>
    intro rank prev hp hall
    obtain ⟨x, hcmp, _⟩ :=
      compare_hands_total prev p.2 hp (hall p (List.mem_cons_self _ _))
    obtain ⟨tl, htl⟩ := ih (if x = 0 then rank else rank + 1) p.2
      (hall p (List.mem_cons_self _ _))
      (fun q hq => hall q (List.mem_cons_of_mem _ hq))
    refine ⟨((if x = 0 then rank else rank + 1), p.1, p.2) :: tl, ?_⟩
    simp only [assignRanks, hcmp, htl]

theorem get_result_some (cache : Cache) (board : List Card)
    (players : List (String × List Card)) (hwf : CacheWF cache)
    (h5b : 5 ≤ board.length) (h2 : 2 ≤ players.length) :
    ∃ pos0 bh0 tl cache2,
      get_result cache board players = some ((0, pos0, bh0) :: tl, cache2) ∧
      CacheWF cache2 := by
  obtain ⟨hs, cache2, hcl, hlen, hwf2, hall⟩ :=
    classifyAll_some board h5b players cache hwf
  have hperm :=
    insSort_perm (fun (x a : String × BHand) => compare_hands x.2 a.2 == some (-1)) hs
  have hslen := hperm.length_eq
  cases hsort : insSort
      (fun (x a : String × BHand) => compare_hands x.2 a.2 == some (-1)) hs with
  | nil =>
    rw [hsort] at hslen
    simp only [List.length_nil] at hslen
    omega
  | cons h0 t =>
    cases t with
    | nil =>
      rw [hsort] at hslen
      simp only [List.length_cons, List.length_nil] at hslen
      omega
    | cons h1 rest =>
      have hmem : ∀ pb ∈ h0 :: h1 :: rest, 5 ≤ pb.2.cards.length := by
        intro pb hpb
        refine hall pb (hperm.mem_iff.mp ?_)
        rw [hsort]; exact hpb
      obtain ⟨tl, htl⟩ := assignRanks_some (h1 :: rest) 0 h0.2
        (hmem h0 (List.mem_cons_self _ _))
        (fun q hq => hmem q (List.mem_cons_of_mem _ hq))
      refine ⟨h0.1, h0.2, tl, cache2, ?_, hwf2⟩
      simp only [get_result, hcl, hsort, htl]

theorem addWin_length (ps : List (String × PlayerTally)) (pos : String)
    (b : Bool) : (addWin ps pos b).length = ps.length := by
  simp [addWin]

theorem applyWinners_length (winners : List String) :
    ∀ (ps : List (String × PlayerTally)) (b : Bool),
    (applyWinners ps winners b).length = ps.length := by
  induction winners with
  | nil => intro ps b; rfl
  | cons w ws ih =>
    intro ps b
    have : applyWinners ps (w :: ws) b = applyWinners (addWin ps w b) ws b := rfl
    rw [this, ih, addWin_length]

theorem stepOutcome_some (known : List Card) (st : SimState) (comb : List Card)
    (hwf : CacheWF st.cache) (h2 : 2 ≤ st.players.length)
    (h5 : 5 ≤ known.length + comb.length) :
    ∃ st2, stepOutcome known st comb = some st2 ∧ CacheWF st2.cache ∧
      st2.players.length = st.players.length ∧
      st2.outcomes = st.outcomes + 1 := by
  obtain ⟨pos0, bh0, tl, cache2, hgr, hwf2⟩ :=
    get_result_some st.cache (known ++ comb) (playerPairs st.players) hwf
      (by simp only [List.length_append]; omega)
      (by simpa [playerPairs] using h2)
  refine ⟨⟨applyWinners st.players
      (pos0 :: ((tl.filter (fun r => r.1 == 0)).map (fun r => r.2.1)))
      (decide (1 < (pos0 ::
        ((tl.filter (fun r => r.1 == 0)).map (fun r => r.2.1))).length)),
      st.outcomes + 1,
      st.tieOutcomes + (if decide (1 < (pos0 ::
        ((tl.filter (fun r => r.1 == 0)).map (fun r => r.2.1))).length)
        then 1 else 0),
      cache2⟩, ?_, hwf2, ?_, rfl⟩
  · simp only [stepOutcome, hgr, List.filter_cons, List.map_cons]
    rfl
  · exact applyWinners_length _ _ _

theorem foldSim (known : List Card) :
    ∀ (combs : List (List Card)) (st : SimState),
    CacheWF st.cache → 2 ≤ st.players.length →
    (∀ comb ∈ combs, 5 ≤ known.length + comb.length) →
    ∃ st2, combs.foldlM (stepOutcome known) st = some st2 ∧
      st2.outcomes = st.outcomes + combs.length := by
  intro combs
  induction combs with
  | nil => intro st hwf h2 _; exact ⟨st, rfl, by simp⟩
  | cons cb rest ih =>
    intro st hwf h2 hall
    obtain ⟨st1, hstep, hwf1, hlen1, hout1⟩ :=
      stepOutcome_some known st cb hwf h2 (hall cb (List.mem_cons_self _ _))
    obtain ⟨st2, hfold, hout2⟩ := ih st1 hwf1 (by rw [hlen1]; exact h2)
      (fun q hq => hall q (List.mem_cons_of_mem _ hq))
    refine ⟨st2, ?_, ?_⟩
    · rw [List.foldlM_cons, hstep]
      simpa using hfold
    · rw [hout2, hout1, List.length_cons]
      omega

theorem validate_players (c : Config) (hv : validate_config c = true) :
    2 ≤ (initPlayers c).length ∧ c.board.length ≤ 5 := by
  simp only [validate_config, Bool.and_eq_true, decide_eq_true_eq] at hv
  constructor
  · simpa [initPlayers] using hv.2
  · exact hv.1.1.2

/-- C7: for every validated configuration (and any well-formed starting
cache), the enumerator of `main` succeeds and its total outcome count is
exactly `C(|alive pool|, 5 - |board|)` when the board has fewer than 5
cards, and exactly 1 when the board is complete. -/
theorem c7_outcome_count (cache0 : Cache) (c : Config)
    (hwf : CacheWF cache0) (hv : validate_config c = true) :
    ∃ st, run_equity cache0 c = some st ∧
      (c.board.length < 5 →
        st.outcomes = Nat.choose (alive_cards c).length (5 - c.board.length)) ∧
      (c.board.length = 5 → st.outcomes = 1) := by
  obtain ⟨h2, hb5⟩ := validate_players c hv
  by_cases hb : c.board.length = 5
  · obtain ⟨pos0, bh0, tl, cache2, hgr, _⟩ :=
      get_result_some cache0 c.board (playerPairs (initPlayers c)) hwf
        (by omega) (by simpa [playerPairs] using h2)
    refine ⟨⟨initPlayers c, 1, 0, cache2⟩, ?_, fun hlt => absurd hb (by omega),
      fun _ => rfl⟩
    simp only [run_equity, if_pos hb, hgr]
  · have hcombs : ∀ comb ∈ List.sublistsLen (5 - c.board.length) (alive_cards c),
        5 ≤ c.board.length + comb.length := by
      intro comb hc
      have := (List.mem_sublistsLen.mp hc).2
      omega
    obtain ⟨st, hfold, hout⟩ := foldSim c.board
      (List.sublistsLen (5 - c.board.length) (alive_cards c))
      ⟨initPlayers c, 0, 0, cache0⟩ hwf h2 hcombs
    refine ⟨st, ?_, fun _ => ?_, fun h => absurd h hb⟩
    · simp only [run_equity, if_neg hb]
      exact hfold
    · rw [hout, List.length_sublistsLen]
      simp

/-- A validated two-player configuration with a 4-card board, for the
incomplete-board branch of the outcome-count theorem. -/
def cfg7 : Config :=
  ⟨[⟨0,3⟩, ⟨1,3⟩], [⟨2,1⟩, ⟨3,1⟩], [], [], [], [],
   [⟨12,0⟩, ⟨11,0⟩, ⟨10,0⟩, ⟨9,0⟩], []⟩

/-- C7 witness: the outcome-count theorem applied to `cfg7` with the empty
cache. -/
theorem c7_outcome_count_witness :
    ∃ st, run_equity [] cfg7 = some st ∧
      (cfg7.board.length < 5 →
        st.outcomes = Nat.choose (alive_cards cfg7).length (5 - cfg7.board.length)) ∧
      (cfg7.board.length = 5 → st.outcomes = 1) :=
  c7_outcome_count [] cfg7 (by intro kv hkv; cases hkv) (by decide)
